import Mathlib

set_option maxHeartbeats 1000000

unseal Rat.mul Rat.add Rat.sub Rat.inv

namespace WLG

/-!
Shallow embedding of the WLG repository (src/app.py and
src/optimizador_logic.py).  Python floats are modelled as exact
rationals (ℚ); Python dicts (insertion ordered) are modelled as
association lists; the external MILP engine (PuLP) is modelled as an
abstract `Solver` parameter together with the validity contract the
spec states for it (an `Optimal` answer is feasible and minimises the
objective).
-/

/-! ### Small Python helpers: `min`, `max` over non-empty lists -/

/-- Python's `min` over a list: `none` on the empty list. -/
def pythonMin (l : List ℚ) : Option ℚ :=
  match l with
  | [] => none
  | x :: xs => some (xs.foldl min x)

/-- Python's `max` over a list: `none` on the empty list. -/
def pythonMax (l : List ℚ) : Option ℚ :=
  match l with
  | [] => none
  | x :: xs => some (xs.foldl max x)

/-- Python's `sorted` ascending (insertion sort is a stable sort, like
Python's). -/
def ordenarAsc (l : List ℚ) : List ℚ := l.insertionSort (fun a b => a ≤ b)

/-- Python's `sorted(…, reverse=True)`: stable descending sort. -/
def ordenarDesc (l : List ℚ) : List ℚ := l.insertionSort (fun a b => b ≤ a)

/-! ### src/app.py — direct (individual) power-supply assignment -/

/-- The three possible warning strings of
`obtener_fuente_adecuada_individual` (the exact message text is
formatting only). -/
inductive AdvertenciaIndividual : Type where
  | ninguna
  | excedeTodas
  | sinFuentes
  deriving DecidableEq, Repr

/-- `obtener_fuente_adecuada_individual` (src/app.py lines 29-44):
adjusted consumption is `consumo * factor`; the smallest sufficient
rating is chosen; if none suffices the largest rating is returned with
a warning; with no ratings at all `(None, advisory)` is returned. -/
def obtener_fuente_adecuada_individual (consumo_requerido_watts : ℚ)
    (fuentes_disponibles_watts : List ℚ) (factor_seguridad : ℚ) :
    Option ℚ × AdvertenciaIndividual :=
  let consumo_ajustado := consumo_requerido_watts * factor_seguridad
  let fuentes_suficientes := fuentes_disponibles_watts.filter (fun f => consumo_ajustado ≤ f)
  if fuentes_suficientes = [] then
    match pythonMax fuentes_disponibles_watts with
    | some m => (some m, .excedeTodas)
    | none => (none, .sinFuentes)
  else (pythonMin fuentes_suficientes, .ninguna)

/-! ### src/app.py — grouped (First-Fit-Decreasing) power-supply assignment -/

/-- An assigned cut inside a supply instance: the dict
`{"largo": …, "consumo_real": …}` of src/app.py lines 92/105/119. -/
structure Corte where
  largo : ℚ
  consumo_real : ℚ
  deriving DecidableEq, Repr

/-- One expanded physical piece (src/app.py lines 64-68). -/
structure Pieza where
  largo_original : ℚ
  consumo_real : ℚ
  consumo_ajustado : ℚ
  deriving DecidableEq, Repr

/-- An opened supply instance (`fuentes_en_uso` entry, src/app.py line 74). -/
structure FuenteEnUso where
  tipo : ℚ
  restante : ℚ
  cortes_asignados : List Corte
  deriving DecidableEq, Repr

/-- Tag for the entries of the internal `detalles_fuentes_asignadas_list`
(src/app.py lines 122-139); that list is built but not returned. -/
inductive TipoDescarte : Type where
  | excedeTodas
  | noAsignada
  deriving DecidableEq, Repr

/-- An entry of the internal (non-returned) per-piece detail list. -/
structure Descarte where
  largo : ℚ
  tipo : TipoDescarte
  deriving DecidableEq, Repr

/-- The mutable state of the assignment loop of
`optimizar_fuentes_para_cortes_agrupados`. -/
structure EstadoAsignacion where
  fuentes_en_uso : List FuenteEnUso
  total_fuentes : List (ℚ × ℕ)
  descartes : List Descarte
  deriving DecidableEq, Repr

/-- Python `defaultdict`-style increment on an insertion-ordered
association list (existing key updated in place, new key appended). -/
def assocAdd : List (ℚ × ℕ) → ℚ × ℕ → List (ℚ × ℕ)
  | [], kv => [kv]
  | (k, v) :: rest, kv =>
      if k = kv.1 then (k, v + kv.2) :: rest else (k, v) :: assocAdd rest kv

/-- Expansion of the request map into individual pieces
(src/app.py lines 59-68): each length contributes `cantidad` pieces with
real consumption `largo * wpm` and adjusted consumption
`largo * wpm * factor`. -/
def piezasDe (sol : List (ℚ × ℕ)) (wpm : ℚ) (factor : ℚ) : List Pieza :=
  sol.flatMap (fun lc => List.replicate lc.2 ⟨lc.1, lc.1 * wpm, lc.1 * wpm * factor⟩)

/-- The descending comparison on adjusted consumption used by the
`piezas_consumo_ajustado.sort(..., reverse=True)` call
(src/app.py line 71); insertion sort with this relation is stable, like
Python's sort. -/
def piezaMayor (a b : Pieza) : Prop := b.consumo_ajustado ≤ a.consumo_ajustado

instance : DecidableRel piezaMayor :=
  fun a b => inferInstanceAs (Decidable (b.consumo_ajustado ≤ a.consumo_ajustado))

/-- First-fit placement into the already-opened instances
(src/app.py lines 89-94): the first instance with enough remaining
capacity receives the cut. -/
def colocarEnExistente (consumo : ℚ) (corte : Corte) :
    List FuenteEnUso → Option (List FuenteEnUso)
  | [] => none
  | b :: bs =>
      if consumo ≤ b.restante then
        some ({ b with restante := b.restante - consumo,
                       cortes_asignados := b.cortes_asignados ++ [corte] } :: bs)
      else (colocarEnExistente consumo corte bs).map (fun bs' => b :: bs')

/-- Ascending first fit over the available ratings
(src/app.py lines 100-109). -/
def buscarFuenteNueva (consumo : ℚ) (fuentes : List ℚ) : Option ℚ :=
  (ordenarAsc fuentes).find? (fun f => consumo ≤ f)

/-- One iteration of the assignment loop (src/app.py lines 82-139). -/
def asignarPieza (fuentes : List ℚ) (st : EstadoAsignacion) (pz : Pieza) :
    EstadoAsignacion :=
  let corte : Corte := ⟨pz.largo_original, pz.consumo_real⟩
  match colocarEnExistente pz.consumo_ajustado corte st.fuentes_en_uso with
  | some nuevos => { st with fuentes_en_uso := nuevos }
  | none =>
    match buscarFuenteNueva pz.consumo_ajustado fuentes with
    | some f =>
        { st with
          fuentes_en_uso := st.fuentes_en_uso ++ [⟨f, f - pz.consumo_ajustado, [corte]⟩],
          total_fuentes := assocAdd st.total_fuentes (f, 1) }
    | none =>
      match pythonMax fuentes with
      | some m =>
          { st with
            fuentes_en_uso := st.fuentes_en_uso ++ [⟨m, m - pz.consumo_ajustado, [corte]⟩],
            total_fuentes := assocAdd st.total_fuentes (m, 1),
            descartes := st.descartes ++ [⟨pz.largo_original, .excedeTodas⟩] }
      | none => { st with descartes := st.descartes ++ [⟨pz.largo_original, .noAsignada⟩] }

/-- A row of the returned `detalles_finales_agrupados`
(src/app.py lines 148-155). -/
structure DetalleFinal where
  id_fuente : ℕ
  potencia : ℚ
  cortes_asignados : List Corte
  consumo_total : ℚ
  restante : ℚ
  advertencia : Bool
  deriving DecidableEq, Repr

/-- Final formatting (src/app.py lines 142-156): one row per opened
instance, `advertencia` set exactly when the remaining capacity is
negative. -/
def formatearDetalles : List FuenteEnUso → ℕ → List DetalleFinal
  | [], _ => []
  | b :: bs, n =>
      ⟨n, b.tipo, b.cortes_asignados, b.tipo - b.restante, b.restante,
        decide (b.restante < 0)⟩ :: formatearDetalles bs (n + 1)

/-- `optimizar_fuentes_para_cortes_agrupados` (src/app.py lines 47-158).
Pieces are sorted by adjusted consumption descending (stable, like
Python's `list.sort`), assigned first-fit, and the function returns the
per-rating totals and the per-instance detail rows.  The internal
per-piece warning list (`descartes` here) is dropped by the `return`,
exactly as in the source. -/
def optimizar_fuentes_para_cortes_agrupados (sol : List (ℚ × ℕ)) (wpm : ℚ)
    (fuentes : List ℚ) (factor : ℚ) : List (ℚ × ℕ) × List DetalleFinal :=
  let piezas := (piezasDe sol wpm factor).insertionSort piezaMayor
  let final := piezas.foldl (asignarPieza fuentes) ⟨[], [], []⟩
  (final.total_fuentes, formatearDetalles final.fuentes_en_uso 1)


/-! ### src/optimizador_logic.py — pattern generation -/

/-- Inner `for i, largo in enumerate(largos_disponibles)` loop of
`generar_todos_los_patrones` (src/optimizador_logic.py lines 84-90):
for each suffix `largo :: rest` whose head still fits, recurse (via
`ih`, the generator one recursion level deeper) on that suffix with
`current ++ [largo]`. -/
def genFLoop (L : ℚ) (ih : List ℚ → List ℚ → List (List ℚ)) :
    List ℚ → List ℚ → List (List ℚ)
  | [], _ => []
  | largo :: rest, current =>
      (if current.sum + largo ≤ L then ih (largo :: rest) (current ++ [largo]) else [])
        ++ genFLoop L ih rest current

/-- Recursion-depth-indexed body of `generar_todos_los_patrones`
(src/optimizador_logic.py lines 69-91).  `fuel` is the number of pieces
that may still be appended to `current`:

* with `max_items = k` the Python guard `len(current_pattern) >= max_items`
  fires exactly when `fuel = k - len(current)` reaches `0`, and in that
  case the source appends `current` (when valid) and stops - which is
  precisely the `fuel = 0` equation, so `genF L k largos []` is exactly
  the Python call with `max_items = k`;
* with `max_items = None` the Python recursion adds one piece per level
  and, for positive lengths, cannot exceed depth `⌈L / min⌉ + 1`, so any
  fuel of at least that bound yields the Python result (`fuelSinTope`
  below supplies such a bound). -/
def genF (L : ℚ) : ℕ → List ℚ → List ℚ → List (List ℚ)
  | 0, _, current => if current.sum ≤ L ∧ current ≠ [] then [current] else []
  | r + 1, largos, current =>
      (if current.sum ≤ L ∧ current ≠ [] then [current] else [])
        ++ genFLoop L (genF L r) largos current

/-- Recursion-depth bound used to run `genF` for the `max_items = None`
case: for positive lengths it exceeds the depth the Python recursion can
reach. -/
def fuelSinTope (L : ℚ) (largos : List ℚ) : ℕ :=
  match pythonMin largos with
  | none => 1
  | some m => if 0 < m then (⌈L / m⌉).toNat + 1 else 1

/-- Fuel for a given `max_items` option. -/
def fuelDe (L : ℚ) (largos : List ℚ) : Option ℕ → ℕ
  | some k => k
  | none => fuelSinTope L largos

/-- `generar_todos_los_patrones` (src/optimizador_logic.py lines 69-91),
started with the empty current pattern as at line 95. -/
def generar_todos_los_patrones (largos_disponibles : List ℚ) (L : ℚ)
    (max_items : Option ℕ) : List (List ℚ) :=
  genF L (fuelDe L largos_disponibles max_items) largos_disponibles []

/-- `collections.OrderedDict.fromkeys` deduplication: keep the first
occurrence of each element, preserving order (src/optimizador_logic.py
line 97). -/
def pythonDedupAux : List (List ℚ) → List (List ℚ) → List (List ℚ)
  | [], _ => []
  | x :: xs, seen =>
      if x ∈ seen then pythonDedupAux xs seen else x :: pythonDedupAux xs (x :: seen)

/-- `list(collections.OrderedDict.fromkeys(l))`. -/
def pythonDedup (l : List (List ℚ)) : List (List ℚ) := pythonDedupAux l []

/-! ### src/optimizador_logic.py — request splitting and large pieces -/

/-- One step of the request-splitting loop (src/optimizador_logic.py
lines 26-30): requests longer than the roll go to the large list, the
rest are accumulated (insertion-ordered, quantities merged) in the
small map. -/
def procesarSolicitud (L : ℚ) (acc : List (ℚ × ℕ) × List (ℚ × ℕ))
    (lc : ℚ × ℕ) : List (ℚ × ℕ) × List (ℚ × ℕ) :=
  if L < lc.1 then (acc.1, acc.2 ++ [lc]) else (assocAdd acc.1 lc, acc.2)

/-- The split of the request map into `cortes_para_optimizar` (first
component) and `cortes_grandes_externos` (second component),
src/optimizador_logic.py lines 22-30. -/
def separarSolicitudes (L : ℚ) (sol : List (ℚ × ℕ)) :
    List (ℚ × ℕ) × List (ℚ × ℕ) :=
  sol.foldl (procesarSolicitud L) ([], [])

/-- `sum(c['largo'] * c['cantidad'] for c in …)`. -/
def sumaLargoPorCantidad (a : List (ℚ × ℕ)) : ℚ :=
  (a.map (fun p => p.1 * (p.2 : ℚ))).sum

/-- Total quantity requested for a given length (sums duplicate keys). -/
def cantidadTotal (a : List (ℚ × ℕ)) (l : ℚ) : ℕ :=
  (a.map (fun p => if p.1 = l then p.2 else 0)).sum

/-- `sum(c['cantidad'] for c in cortes_grandes_externos)`. -/
def cantidadPiezas (a : List (ℚ × ℕ)) : ℕ := (a.map Prod.snd).sum

/-- `num_rollos_para_total_grandes` (src/optimizador_logic.py lines
37-40): `math.ceil` of total metres over the roll length, `0` when
there are no large requests. -/
def rollosGrandes (L : ℚ) (g : List (ℚ × ℕ)) : ℤ :=
  if g = [] then 0 else ⌈sumaLargoPorCantidad g / L⌉

/-- `desperdicio_para_total_grandes` (src/optimizador_logic.py lines
42-43): material consumed minus metres required. -/
def desperdicioGrandes (L : ℚ) (g : List (ℚ × ℕ)) : ℚ :=
  (rollosGrandes L g : ℚ) * L - sumaLargoPorCantidad g

/-- The `RESUMEN_PIEZAS_GRANDES` record (src/optimizador_logic.py lines
48-55), present exactly when there are large requests. -/
structure ResumenGrande where
  tipo_rollo : ℚ
  total_metros : ℚ
  num_piezas : ℕ
  rollos_fisicos : ℤ
  desperdicio : ℚ
  deriving DecidableEq, Repr

/-- `detalles_cortes_grandes_externos_formateados`. -/
def resumenGrandes (L : ℚ) (g : List (ℚ × ℕ)) : List ResumenGrande :=
  if g = [] then []
  else [⟨L, sumaLargoPorCantidad g, cantidadPiezas g, rollosGrandes L g,
        desperdicioGrandes L g⟩]

/-! ### The external MILP engine as an abstract solver -/

/-- The solver statuses the source distinguishes: `LpStatus` is compared
only against `'Optimal'`; every other status is surfaced verbatim, so
they are lumped into `infeasible` (the one the spec names) and
`otherStatus`. -/
inductive SolverStatus : Type where
  | optimal
  | infeasible
  | otherStatus
  deriving DecidableEq, Repr

/-- What `problema.solve()` leaves behind: a status and the values of
the `UsoPatron` variables (one per pattern, read as `int(x[i].varValue)`
at src/optimizador_logic.py line 140). -/
structure SolveResult where
  status : SolverStatus
  values : List ℕ
  deriving DecidableEq, Repr

/-- The pluggable MILP engine of the spec (§9): it receives the pattern
list and the demand map (which determine objective and constraints,
src/optimizador_logic.py lines 106-123) and returns a status plus
variable values. -/
def Solver : Type := List (List ℚ) → List (ℚ × ℕ) → SolveResult

/-- `Σᵢ xᵢ · (occurrences of length l in pattern i)` — the left-hand side
of the demand constraint (src/optimizador_logic.py lines 117-120). -/
def cobertura (P : List (List ℚ)) (xs : List ℕ) (l : ℚ) : ℕ :=
  ((P.zip xs).map (fun z => z.2 * z.1.count l)).sum

/-- The constraint system of the integer program: one value per pattern
and every demand covered. -/
def EsFactible (P : List (List ℚ)) (D : List (ℚ × ℕ)) (xs : List ℕ) : Prop :=
  xs.length = P.length ∧ ∀ ld ∈ D, ld.2 ≤ cobertura P xs ld.1

/-- The contract of a correct MILP engine (spec §4.3/§9): an `Optimal`
answer is a feasible assignment whose objective `Σ xᵢ` (total rolls) is
minimal among all feasible assignments. -/
def ValidSolver (s : Solver) : Prop :=
  ∀ P D, (s P D).status = .optimal →
    EsFactible P D (s P D).values ∧
      ∀ ys, EsFactible P D ys → ((s P D).values).sum ≤ ys.sum

/-! ### src/optimizador_logic.py — the full cutting-plan computation -/

/-- Return status of `optimizar_cortes_para_un_largo_rollo`: the solver
status, or one of the two early-return strings (src/optimizador_logic.py
lines 57-62 and 99-104). -/
inductive Estado : Type where
  | optimalE
  | infeasibleE
  | otherE
  | soloGrandes
  | noPatrones
  deriving DecidableEq, Repr

/-- Map of `LpStatus[problema.status]` into `Estado`. -/
def Estado.deSolver : SolverStatus → Estado
  | .optimal => .optimalE
  | .infeasible => .infeasibleE
  | .otherStatus => .otherE

/-- An `Opt-Rollo-n` detail record (src/optimizador_logic.py lines
147-153). -/
structure RolloDetalle where
  rollo_id : ℕ
  tipo_rollo : ℚ
  cortes_en_rollo : List ℚ
  desperdicio_en_rollo : ℚ
  metros_consumidos : ℚ
  deriving DecidableEq, Repr

/-- Materialisation loop (src/optimizador_logic.py lines 138-154): each
pattern is emitted once per use, with a running roll identifier. -/
def construirDetalles (L : ℚ) : List (List ℚ × ℕ) → ℕ → List RolloDetalle
  | [], _ => []
  | (p, n) :: rest, idx =>
      (List.range n).map (fun j => ⟨idx + j, L, p, L - p.sum, p.sum⟩)
        ++ construirDetalles L rest (idx + n)

/-- Number of occurrences of the length `l` across the cut lists of a
list of materialised roll plans. -/
def conteoEnDetalles (l : ℚ) (ds : List RolloDetalle) : ℕ :=
  (ds.map (fun d => d.cortes_en_rollo.count l)).sum

/-- `tuple(sorted(p))` canonicalisation plus `OrderedDict` dedup
(src/optimizador_logic.py lines 94-97), applied to the generated
patterns over the descending-sorted distinct small lengths (line 66). -/
def patrones_unicos_de (L : ℚ) (paraOpt : List (ℚ × ℕ))
    (max_items : Option ℕ) : List (List ℚ) :=
  pythonDedup
    ((generar_todos_los_patrones (ordenarDesc (paraOpt.map Prod.fst)) L max_items).map
      ordenarAsc)

/-- The 5-tuple returned by `optimizar_cortes_para_un_largo_rollo`; the
source's single `todos_los_detalles_de_rollos` list concatenates
records of two different dict shapes, kept here as the two fields
`detalles_grandes ++ detalles_opt`. -/
structure Resultado where
  estado : Estado
  num_rollos_totales : ℚ
  desperdicio_total : ℚ
  detalles_grandes : List ResumenGrande
  detalles_opt : List RolloDetalle
  cortes_grandes : List (ℚ × ℕ)
  deriving DecidableEq, Repr

/-- `optimizar_cortes_para_un_largo_rollo` (src/optimizador_logic.py
lines 7-162), with the external MILP engine abstracted as `solver`.
The three paths: all-large early return (lines 57-62), empty-pattern
early return (lines 99-104), and the solve path whose `Optimal` branch
computes `objective.value() = Σ xᵢ`, the material-balance waste of the
small part, and the materialised roll plans (lines 125-162). -/
def optimizar_cortes_para_un_largo_rollo (solver : Solver) (L : ℚ)
    (sol : List (ℚ × ℕ)) (max_items : Option ℕ) : Resultado :=
  let sep := separarSolicitudes L sol
  let paraOpt := sep.1
  let grandes := sep.2
  if paraOpt = [] then
    ⟨.soloGrandes, (rollosGrandes L grandes : ℚ), desperdicioGrandes L grandes,
      resumenGrandes L grandes, [], grandes⟩
  else
    let patrones := patrones_unicos_de L paraOpt max_items
    if patrones = [] then
      ⟨.noPatrones, (rollosGrandes L grandes : ℚ), desperdicioGrandes L grandes,
        resumenGrandes L grandes, [], grandes⟩
    else
      let res := solver patrones paraOpt
      match res.status with
      | .optimal =>
          ⟨.optimalE,
            (res.values.sum : ℚ) + (rollosGrandes L grandes : ℚ),
            ((res.values.sum : ℚ) * L - sumaLargoPorCantidad paraOpt)
              + desperdicioGrandes L grandes,
            resumenGrandes L grandes,
            construirDetalles L (patrones.zip res.values) 1,
            grandes⟩
      | s =>
          ⟨Estado.deSolver s, (rollosGrandes L grandes : ℚ),
            desperdicioGrandes L grandes, resumenGrandes L grandes, [], grandes⟩

/-! ### Concrete solvers used in witnesses and counterexamples -/

/-- A solver that never claims optimality. -/
def solverTrivial : Solver := fun _ _ => ⟨.otherStatus, []⟩

/-- A solver answering only the instance `P = [[3]]`, `D = [(3, 1)]`
(roll length 5, one request of length 3), with the optimal solution
`x = [1]`. -/
def solverUno : Solver := fun P D =>
  if P = [[(3 : ℚ)]] ∧ D = [((3 : ℚ), (1 : ℕ))] then ⟨.optimal, [1]⟩
  else ⟨.otherStatus, []⟩

/-- A solver answering only the instance `P = [[4], [4, 4]]`,
`D = [(4, 3)]` (roll length 10, three requests of length 4), with the
optimal but overproducing solution `x = [0, 2]`. -/
def solverDos : Solver := fun P D =>
  if P = [[(4 : ℚ)], [(4 : ℚ), 4]] ∧ D = [((4 : ℚ), (3 : ℕ))] then ⟨.optimal, [0, 2]⟩
  else ⟨.otherStatus, []⟩


/-! ### Lemmas about `pythonMin` / `pythonMax` -/

theorem foldl_min_le (xs : List ℚ) : ∀ x y, y ∈ x :: xs → xs.foldl min x ≤ y := by
  induction xs with
  | nil =>
    intro x y hy
    simp only [List.mem_singleton] at hy
    simp [hy]
  | cons a t ih =>
    intro x y hy
    simp only [List.foldl_cons]
    rcases List.mem_cons.mp hy with rfl | hy
    · exact le_trans (ih (min y a) (min y a) (List.mem_cons_self _ _)) (min_le_left _ _)
    · rcases List.mem_cons.mp hy with rfl | hy
      · exact le_trans (ih (min x y) (min x y) (List.mem_cons_self _ _)) (min_le_right _ _)
      · exact ih (min x a) y (List.mem_cons_of_mem _ hy)

theorem foldl_min_mem (xs : List ℚ) : ∀ x, xs.foldl min x ∈ x :: xs := by
  induction xs with
  | nil => intro x; simp
  | cons a t ih =>
    intro x
    simp only [List.foldl_cons]
    rcases List.mem_cons.mp (ih (min x a)) with h | h
    · rcases min_choice x a with h' | h' <;> rw [h, h']
      · exact List.mem_cons_self _ _
      · exact List.mem_cons_of_mem _ (List.mem_cons_self _ _)
    · exact List.mem_cons_of_mem _ (List.mem_cons_of_mem _ h)

theorem foldl_max_le (xs : List ℚ) : ∀ x y, y ∈ x :: xs → y ≤ xs.foldl max x := by
  induction xs with
  | nil =>
    intro x y hy
    simp only [List.mem_singleton] at hy
    simp [hy]
  | cons a t ih =>
    intro x y hy
    simp only [List.foldl_cons]
    rcases List.mem_cons.mp hy with rfl | hy
    · exact le_trans (le_max_left _ _) (ih (max y a) (max y a) (List.mem_cons_self _ _))
    · rcases List.mem_cons.mp hy with rfl | hy
      · exact le_trans (le_max_right _ _) (ih (max x y) (max x y) (List.mem_cons_self _ _))
      · exact ih (max x a) y (List.mem_cons_of_mem _ hy)

theorem foldl_max_mem (xs : List ℚ) : ∀ x, xs.foldl max x ∈ x :: xs := by
  induction xs with
  | nil => intro x; simp
  | cons a t ih =>
    intro x
    simp only [List.foldl_cons]
    rcases List.mem_cons.mp (ih (max x a)) with h | h
    · rcases max_choice x a with h' | h' <;> rw [h, h']
      · exact List.mem_cons_self _ _
      · exact List.mem_cons_of_mem _ (List.mem_cons_self _ _)
    · exact List.mem_cons_of_mem _ (List.mem_cons_of_mem _ h)

theorem pythonMin_spec {l : List ℚ} (h : l ≠ []) :
    ∃ m, pythonMin l = some m ∧ m ∈ l ∧ ∀ y ∈ l, m ≤ y := by
  cases l with
  | nil => exact absurd rfl h
  | cons x xs =>
    exact ⟨xs.foldl min x, rfl, foldl_min_mem xs x, fun y hy => foldl_min_le xs x y hy⟩

theorem pythonMax_spec {l : List ℚ} (h : l ≠ []) :
    ∃ m, pythonMax l = some m ∧ m ∈ l ∧ ∀ y ∈ l, y ≤ m := by
  cases l with
  | nil => exact absurd rfl h
  | cons x xs =>
    exact ⟨xs.foldl max x, rfl, foldl_max_mem xs x, fun y hy => foldl_max_le xs x y hy⟩

/-! ### C4: direct-mode assignment -/

/-- C4.  In direct power-assignment mode, for every length whose
adjusted consumption (length × watts-per-meter × safety factor) is
covered by some rating, the smallest available rating ≥ the adjusted
consumption is selected; if no rating suffices but at least one rating
exists, the largest available rating is returned together with an
explicit capacity-exceeded warning (never a null result); if the rating
list is empty, an explicit unassignable marker is returned. -/
theorem C4_teorema (largo wpm factor : ℚ) (fs : List ℚ) :
    ((∃ f ∈ fs, largo * wpm * factor ≤ f) →
      (obtener_fuente_adecuada_individual (largo * wpm) fs factor).1 ≠ none ∧
      (obtener_fuente_adecuada_individual (largo * wpm) fs factor).2 = .ninguna ∧
      ∀ m, (obtener_fuente_adecuada_individual (largo * wpm) fs factor).1 = some m →
        m ∈ fs ∧ largo * wpm * factor ≤ m ∧
          ∀ f ∈ fs, largo * wpm * factor ≤ f → m ≤ f) ∧
    ((∀ f ∈ fs, f < largo * wpm * factor) → fs ≠ [] →
      (obtener_fuente_adecuada_individual (largo * wpm) fs factor).1 ≠ none ∧
      (obtener_fuente_adecuada_individual (largo * wpm) fs factor).2 = .excedeTodas ∧
      ∀ m, (obtener_fuente_adecuada_individual (largo * wpm) fs factor).1 = some m →
        m ∈ fs ∧ ∀ f ∈ fs, f ≤ m) ∧
    (fs = [] →
      obtener_fuente_adecuada_individual (largo * wpm) fs factor = (none, .sinFuentes)) := by
  refine ⟨?_, ?_, ?_⟩
  · intro ⟨f, hf, hle⟩
    have hmemf : f ∈ fs.filter (fun g => largo * wpm * factor ≤ g) := by
      rw [List.mem_filter]
      exact ⟨hf, by simpa using hle⟩
    have hne : fs.filter (fun g => largo * wpm * factor ≤ g) ≠ [] :=
      List.ne_nil_of_mem hmemf
    obtain ⟨m, hm, hmem, hmin⟩ := pythonMin_spec hne
    have heq : obtener_fuente_adecuada_individual (largo * wpm) fs factor =
        (pythonMin (fs.filter (fun g => largo * wpm * factor ≤ g)), .ninguna) := by
      simp only [obtener_fuente_adecuada_individual, mul_assoc]
      rw [if_neg (by simpa [mul_assoc] using hne)]
    rw [heq, hm]
    refine ⟨by simp, rfl, ?_⟩
    rintro m' hm'
    injection hm' with hm'
    subst hm'
    have hmem' := List.mem_filter.mp hmem
    refine ⟨hmem'.1, by simpa using hmem'.2, ?_⟩
    intro g hg hgle
    exact hmin g (List.mem_filter.mpr ⟨hg, by simpa using hgle⟩)
  · intro hall hne
    have hfil : fs.filter (fun g => largo * wpm * factor ≤ g) = [] := by
      rw [List.filter_eq_nil_iff]
      intro g hg
      simpa using not_le.mpr (hall g hg)
    obtain ⟨m, hm, hmem, hmax⟩ := pythonMax_spec hne
    have heq : obtener_fuente_adecuada_individual (largo * wpm) fs factor =
        (some m, .excedeTodas) := by
      simp only [obtener_fuente_adecuada_individual, mul_assoc]
      rw [if_pos (by simpa [mul_assoc] using hfil), hm]
    rw [heq]
    refine ⟨by simp, rfl, ?_⟩
    rintro m' hm'
    injection hm' with hm'
    subst hm'
    exact ⟨hmem, hmax⟩
  · rintro rfl
    rfl

/-- Witness for C4: with ratings `[5, 3]`, a piece of adjusted
consumption 2 gets the tight fit (no warning) and a piece of adjusted
consumption 20 overflows to the largest rating with the warning. -/
theorem C4_testigo :
    (obtener_fuente_adecuada_individual (2 * 1) [5, 3] 1).2 = .ninguna ∧
    (obtener_fuente_adecuada_individual (20 * 1) [5, 3] 1).2 = .excedeTodas ∧
    obtener_fuente_adecuada_individual (2 * 1) [] 1 = (none, .sinFuentes) :=
  ⟨((C4_teorema 2 1 1 [5, 3]).1 ⟨5, by decide, by decide⟩).2.1,
   ((C4_teorema 20 1 1 [5, 3]).2.1 (by decide) (by decide)).2.1,
   (C4_teorema 2 1 1 []).2.2 rfl⟩


/-! ### C9: empty rating list -/

theorem asignar_sin_fuentes (ps : List Pieza) :
    ∀ d, (ps.foldl (asignarPieza []) ⟨[], [], d⟩).fuentes_en_uso = [] ∧
      (ps.foldl (asignarPieza []) ⟨[], [], d⟩).total_fuentes = [] := by
  induction ps with
  | nil => intro d; exact ⟨rfl, rfl⟩
  | cons p ps ih =>
    intro d
    have hstep : asignarPieza [] ⟨[], [], d⟩ p =
        ⟨[], [], d ++ [⟨p.largo_original, .noAsignada⟩]⟩ := rfl
    simpa [List.foldl_cons, hstep] using ih (d ++ [⟨p.largo_original, .noAsignada⟩])

/-- C9 (code bug witness).  With an empty rating list neither mode
raises, but the grouped mode returns empty totals and an **empty**
detail list: the per-piece "No Asignada" markers are accumulated in an
internal list that the `return` statement drops, contradicting both the
claim and the function's own docstring.  The direct mode does return
its explicit unassignable marker. -/
theorem C9_teorema :
    (∀ c factor, obtener_fuente_adecuada_individual c [] factor = (none, .sinFuentes)) ∧
    (∀ sol wpm factor, optimizar_fuentes_para_cortes_agrupados sol wpm [] factor = ([], [])) ∧
    optimizar_fuentes_para_cortes_agrupados [(1, 1)] 1 [] 1 = ([], []) := by
  refine ⟨fun c factor => rfl, ?_, by decide⟩
  intro sol wpm factor
  have h := asignar_sin_fuentes
    ((piezasDe sol wpm factor).insertionSort piezaMayor) []
  simp only [optimizar_fuentes_para_cortes_agrupados]
  rw [h.2, h.1]
  rfl

/-! ### C10: invariants of the returned grouped-mode detail rows -/

theorem colocar_inv (factor : ℚ) (corte : Corte) (consumo : ℚ)
    (hc : consumo = corte.consumo_real * factor) :
    ∀ bins bins', colocarEnExistente consumo corte bins = some bins' →
      (∀ b ∈ bins, b.cortes_asignados ≠ [] ∧
        b.restante = b.tipo - (b.cortes_asignados.map (fun c => c.consumo_real * factor)).sum) →
      ∀ b ∈ bins', b.cortes_asignados ≠ [] ∧
        b.restante = b.tipo - (b.cortes_asignados.map (fun c => c.consumo_real * factor)).sum := by
  intro bins
  induction bins with
  | nil => intro bins' h; exact absurd h (by simp [colocarEnExistente])
  | cons b0 bs ih =>
    intro bins' h hinv
    simp only [colocarEnExistente] at h
    by_cases hle : consumo ≤ b0.restante
    · rw [if_pos hle] at h
      injection h with h
      subst h
      intro b hb
      rcases List.mem_cons.mp hb with rfl | hb
      · constructor
        · simp
        · have h0 := (hinv b0 (List.mem_cons_self _ _)).2
          simp only [List.map_append, List.sum_append, List.map_cons, List.map_nil,
            List.sum_cons, List.sum_nil]
          rw [hc] at *
          simp only [h0]
          ring
      · exact hinv b (List.mem_cons_of_mem _ hb)
    · rw [if_neg hle] at h
      cases hrec : colocarEnExistente consumo corte bs with
      | none => simp [hrec] at h
      | some bs' =>
        rw [hrec] at h
        simp only [Option.map_some'] at h
        injection h with h
        subst h
        intro b hb
        rcases List.mem_cons.mp hb with rfl | hb
        · exact hinv b (List.mem_cons_self _ _)
        · exact ih bs' hrec (fun b hb => hinv b (List.mem_cons_of_mem _ hb)) b hb

theorem fold_asignar_inv (fuentes : List ℚ) (factor : ℚ) :
    ∀ (ps : List Pieza),
      (∀ p ∈ ps, p.consumo_ajustado = p.consumo_real * factor) →
      ∀ st, (∀ b ∈ st.fuentes_en_uso, b.cortes_asignados ≠ [] ∧
          b.restante = b.tipo -
            (b.cortes_asignados.map (fun c => c.consumo_real * factor)).sum) →
      ∀ b ∈ (ps.foldl (asignarPieza fuentes) st).fuentes_en_uso,
        b.cortes_asignados ≠ [] ∧
        b.restante = b.tipo -
          (b.cortes_asignados.map (fun c => c.consumo_real * factor)).sum := by
  intro ps
  induction ps with
  | nil => intro _ st hst; simpa using hst
  | cons p ps ih =>
    intro hps st hst
    simp only [List.foldl_cons]
    refine ih (fun q hq => hps q (List.mem_cons_of_mem _ hq)) _ ?_
    have hp := hps p (List.mem_cons_self _ _)
    simp only [asignarPieza]
    cases hcol : colocarEnExistente p.consumo_ajustado
        ⟨p.largo_original, p.consumo_real⟩ st.fuentes_en_uso with
    | some nuevos =>
      simpa using colocar_inv factor ⟨p.largo_original, p.consumo_real⟩
        p.consumo_ajustado (by simpa using hp) st.fuentes_en_uso nuevos hcol hst
    | none =>
      cases hbus : buscarFuenteNueva p.consumo_ajustado fuentes with
      | some f =>
        simp only
        intro b hb
        rcases List.mem_append.mp hb with hb | hb
        · exact hst b hb
        · simp only [List.mem_singleton] at hb
          subst hb
          refine ⟨by simp, ?_⟩
          simp [hp]
      | none =>
        cases hmax : pythonMax fuentes with
        | some m =>
          simp only
          intro b hb
          rcases List.mem_append.mp hb with hb | hb
          · exact hst b hb
          · simp only [List.mem_singleton] at hb
            subst hb
            refine ⟨by simp, ?_⟩
            simp [hp]
        | none => simpa using hst

theorem formatear_mem :
    ∀ (bins : List FuenteEnUso) (n : ℕ) (d : DetalleFinal),
      d ∈ formatearDetalles bins n →
      ∃ b ∈ bins, d.potencia = b.tipo ∧ d.cortes_asignados = b.cortes_asignados ∧
        d.restante = b.restante ∧ d.advertencia = decide (b.restante < 0) := by
  intro bins
  induction bins with
  | nil => intro n d h; exact absurd h (by simp [formatearDetalles])
  | cons b bs ih =>
    intro n d h
    simp only [formatearDetalles, List.mem_cons] at h
    rcases h with rfl | h
    · exact ⟨b, List.mem_cons_self _ _, rfl, rfl, rfl, rfl⟩
    · obtain ⟨b', hb', hd⟩ := ih (n + 1) d h
      exact ⟨b', List.mem_cons_of_mem _ hb', hd⟩

/-- C10.  In grouped power-assignment mode, every row of the returned
detail table satisfies: it holds at least one piece, its residual
capacity equals its rating minus the sum of the adjusted consumptions
(real consumption × safety factor) of the pieces assigned to it, and it
carries the capacity-exceeded warning iff that residual is negative. -/
theorem C10_teorema (sol : List (ℚ × ℕ)) (wpm fuentes_factor : ℚ) (fuentes : List ℚ)
    (d : DetalleFinal)
    (hd : d ∈ (optimizar_fuentes_para_cortes_agrupados sol wpm fuentes fuentes_factor).2) :
    d.cortes_asignados ≠ [] ∧
    d.restante = d.potencia -
      (d.cortes_asignados.map (fun c => c.consumo_real * fuentes_factor)).sum ∧
    ((d.advertencia = true) ↔ d.restante < 0) := by
  simp only [optimizar_fuentes_para_cortes_agrupados] at hd
  obtain ⟨b, hb, hpot, hcort, hrest, hadv⟩ := formatear_mem _ _ _ hd
  have hpz : ∀ p ∈ (piezasDe sol wpm fuentes_factor).insertionSort piezaMayor,
      p.consumo_ajustado = p.consumo_real * fuentes_factor := by
    intro p hp
    have hp' : p ∈ piezasDe sol wpm fuentes_factor :=
      (List.perm_insertionSort piezaMayor _).mem_iff.mp hp
    simp only [piezasDe, List.mem_flatMap] at hp'
    obtain ⟨lc, _, hrep⟩ := hp'
    have := List.eq_of_mem_replicate hrep
    subst this
    rfl
  have hinv := fold_asignar_inv fuentes fuentes_factor _ hpz ⟨[], [], []⟩ (by simp) b hb
  refine ⟨by rw [hcort]; exact hinv.1, ?_, ?_⟩
  · rw [hcort, hrest, hpot]; exact hinv.2
  · rw [hadv, hrest]; exact decide_eq_true_iff


/-- Witness for C10 at a concrete run: one request of length 2 at
1 W/m, safety factor 1, single rating 5 gives the single detail row
`⟨1, 5, [⟨2, 2⟩], 2, 3, false⟩`; the theorem's guarantees hold there. -/
theorem C10_testigo :
    (DetalleFinal.mk 1 5 [Corte.mk 2 2] 2 3 false).cortes_asignados ≠ [] ∧
    ((DetalleFinal.mk 1 5 [Corte.mk 2 2] 2 3 false).advertencia = true ↔
      (DetalleFinal.mk 1 5 [Corte.mk 2 2] 2 3 false).restante < 0) :=
  ⟨(C10_teorema [(2, 1)] 1 1 [5] (DetalleFinal.mk 1 5 [Corte.mk 2 2] 2 3 false)
      (by decide)).1,
   (C10_teorema [(2, 1)] 1 1 [5] (DetalleFinal.mk 1 5 [Corte.mk 2 2] 2 3 false)
      (by decide)).2.2⟩

/-! ### C1: grouped-mode packing of adjusted demands [90, 40, 35] over ratings [100, 60] -/

/-- C1 counterexample.  The claim says this input opens exactly 2
supply instances; the code's first-fit (no look-ahead) opens 3. -/
theorem C1_contraejemplo :
    (optimizar_fuentes_para_cortes_agrupados [(90, 1), (40, 1), (35, 1)] 1 [100, 60] 1).2.length
      ≠ 2 := by
  decide

/-- C1 as amended.  Demands [90, 40, 35] (adjusted watts, here lengths
90/40/35 m at 1 W/m with safety factor 1) over ratings [100, 60] open
exactly 3 instances: one rated 100 holding {90}, one rated 60 holding
{40}, one rated 60 holding {35} — a piece that fits no open instance
opens the smallest rating covering that piece alone, with no
escalation for future pieces; the per-rating totals are
{100: 1, 60: 2}. -/
theorem C1_teorema :
    optimizar_fuentes_para_cortes_agrupados [(90, 1), (40, 1), (35, 1)] 1 [100, 60] 1 =
      ([(100, 1), (60, 2)],
       [DetalleFinal.mk 1 100 [Corte.mk 90 90] 90 10 false,
        DetalleFinal.mk 2 60 [Corte.mk 40 40] 40 20 false,
        DetalleFinal.mk 3 60 [Corte.mk 35 35] 35 25 false]) := by
  decide


/-! ### Lemmas about the pattern generator -/

theorem genF_zero (L : ℚ) (largos current : List ℚ) :
    genF L 0 largos current =
      if current.sum ≤ L ∧ current ≠ [] then [current] else [] := rfl

theorem genF_succ (L : ℚ) (r : ℕ) (largos current : List ℚ) :
    genF L (r + 1) largos current =
      (if current.sum ≤ L ∧ current ≠ [] then [current] else [])
        ++ genFLoop L (genF L r) largos current := rfl

theorem genFLoop_nil (L : ℚ) (ih : List ℚ → List ℚ → List (List ℚ)) (current : List ℚ) :
    genFLoop L ih [] current = [] := rfl

theorem genFLoop_cons (L : ℚ) (ih : List ℚ → List ℚ → List (List ℚ))
    (a : ℚ) (rest current : List ℚ) :
    genFLoop L ih (a :: rest) current =
      (if current.sum + a ≤ L then ih (a :: rest) (current ++ [a]) else [])
        ++ genFLoop L ih rest current := rfl

/-- Every pattern the generator emits fits the roll and has at most
`fuel` pieces beyond the current partial pattern. -/
theorem genF_inv (L : ℚ) : ∀ r : ℕ, ∀ largos current p, p ∈ genF L r largos current →
    p.sum ≤ L ∧ p.length ≤ current.length + r := by
  intro r
  induction r with
  | zero =>
    intro largos current p hp
    rw [genF_zero] at hp
    by_cases hc : current.sum ≤ L ∧ current ≠ []
    · rw [if_pos hc] at hp
      simp only [List.mem_singleton] at hp
      subst hp
      exact ⟨hc.1, by simp⟩
    · rw [if_neg hc] at hp
      exact absurd hp (by simp)
  | succ r ih =>
    have hloop : ∀ largos current p, p ∈ genFLoop L (genF L r) largos current →
        p.sum ≤ L ∧ p.length ≤ current.length + 1 + r := by
      intro largos
      induction largos with
      | nil => intro current p hp; rw [genFLoop_nil] at hp; exact absurd hp (by simp)
      | cons a rest ihl =>
        intro current p hp
        rw [genFLoop_cons] at hp
        rcases List.mem_append.mp hp with hp | hp
        · by_cases hc : current.sum + a ≤ L
          · rw [if_pos hc] at hp
            obtain ⟨h1, h2⟩ := ih (a :: rest) (current ++ [a]) p hp
            refine ⟨h1, ?_⟩
            calc p.length ≤ (current ++ [a]).length + r := h2
              _ = current.length + 1 + r := by simp
          · rw [if_neg hc] at hp; exact absurd hp (by simp)
        · exact ihl current p hp
    intro largos current p hp
    rw [genF_succ] at hp
    rcases List.mem_append.mp hp with hp | hp
    · by_cases hc : current.sum ≤ L ∧ current ≠ []
      · rw [if_pos hc] at hp
        simp only [List.mem_singleton] at hp
        subst hp
        exact ⟨hc.1, by omega⟩
      · rw [if_neg hc] at hp
        exact absurd hp (by simp)
    · obtain ⟨h1, h2⟩ := hloop largos current p hp
      exact ⟨h1, by omega⟩

/-- More fuel only adds patterns. -/
theorem genF_mono (L : ℚ) : ∀ r r' : ℕ, r ≤ r' →
    ∀ largos current p, p ∈ genF L r largos current → p ∈ genF L r' largos current := by
  intro r
  induction r with
  | zero =>
    intro r' _ largos current p hp
    rw [genF_zero] at hp
    cases r' with
    | zero => rw [genF_zero]; exact hp
    | succ t => rw [genF_succ]; exact List.mem_append_left _ hp
  | succ s ih =>
    intro r' hr largos current p hp
    cases r' with
    | zero => omega
    | succ t =>
      have hst : s ≤ t := by omega
      have hloop : ∀ (ls cur q : List ℚ), q ∈ genFLoop L (genF L s) ls cur →
          q ∈ genFLoop L (genF L t) ls cur := by
        intro ls
        induction ls with
        | nil => intro cur q hq; rw [genFLoop_nil] at hq; exact absurd hq (by simp)
        | cons a rest ihl =>
          intro cur q hq
          rw [genFLoop_cons] at hq
          rw [genFLoop_cons]
          rcases List.mem_append.mp hq with hq | hq
          · by_cases hc : cur.sum + a ≤ L
            · rw [if_pos hc] at hq
              exact List.mem_append_left _
                (by rw [if_pos hc]; exact ih t hst (a :: rest) (cur ++ [a]) q hq)
            · rw [if_neg hc] at hq; exact absurd hq (by simp)
          · exact List.mem_append_right _ (ihl cur q hq)
      rw [genF_succ] at hp
      rw [genF_succ]
      rcases List.mem_append.mp hp with hp | hp
      · exact List.mem_append_left _ hp
      · exact List.mem_append_right _ (hloop largos current p hp)

/-- The current pattern, when valid, is in the generator output. -/
theorem genF_mem_self (L : ℚ) (r : ℕ) (largos current : List ℚ)
    (h1 : current.sum ≤ L) (h2 : current ≠ []) : current ∈ genF L r largos current := by
  cases r with
  | zero => rw [genF_zero, if_pos ⟨h1, h2⟩]; exact List.mem_singleton_self _
  | succ t =>
    rw [genF_succ, if_pos ⟨h1, h2⟩]
    exact List.mem_append_left _ (List.mem_singleton_self _)

/-- Any single available length that fits the roll is generated as a
one-piece pattern (at any positive fuel). -/
theorem singleton_mem_genF (L : ℚ) (r : ℕ) :
    ∀ largos l, l ∈ largos → l ≤ L → [l] ∈ genF L (r + 1) largos [] := by
  intro largos
  induction largos with
  | nil => intro l hl; exact absurd hl (by simp)
  | cons a rest ihl =>
    intro l hl hle
    rw [genF_succ]
    refine List.mem_append_right _ ?_
    rw [genFLoop_cons]
    rcases List.mem_cons.mp hl with rfl | hl
    · have hc : ([] : List ℚ).sum + l ≤ L := by simpa using hle
      refine List.mem_append_left _ ?_
      rw [if_pos hc]
      exact genF_mem_self L r (l :: rest) [l] (by simpa using hle) (by simp)
    · refine List.mem_append_right _ ?_
      have := ihl l hl hle
      rw [genF_succ] at this
      rcases List.mem_append.mp this with h | h
      · rw [if_neg (by simp)] at h
        exact absurd h (by simp)
      · exact h

/-! ### Lemmas about `pythonDedup` -/

theorem pythonDedupAux_mem : ∀ (l seen : List (List ℚ)) (x : List ℚ),
    x ∈ pythonDedupAux l seen ↔ x ∈ l ∧ x ∉ seen := by
  intro l
  induction l with
  | nil => intro seen x; simp [pythonDedupAux]
  | cons a t ih =>
    intro seen x
    simp only [pythonDedupAux]
    by_cases ha : a ∈ seen
    · rw [if_pos ha, ih]
      constructor
      · rintro ⟨hx, hs⟩; exact ⟨List.mem_cons_of_mem _ hx, hs⟩
      · rintro ⟨hx, hs⟩
        refine ⟨?_, hs⟩
        rcases List.mem_cons.mp hx with rfl | hx
        · exact absurd ha hs
        · exact hx
    · rw [if_neg ha]
      constructor
      · intro hx
        rcases List.mem_cons.mp hx with rfl | hx
        · exact ⟨List.mem_cons_self _ _, ha⟩
        · obtain ⟨h1, h2⟩ := (ih _ _).mp hx
          exact ⟨List.mem_cons_of_mem _ h1, fun hs => h2 (List.mem_cons_of_mem _ hs)⟩
      · rintro ⟨hx, hs⟩
        rcases List.mem_cons.mp hx with rfl | hx
        · exact List.mem_cons_self _ _
        · by_cases hxa : x = a
          · subst hxa; exact List.mem_cons_self _ _
          · exact List.mem_cons_of_mem _
              ((ih _ _).mpr ⟨hx, by simp [hxa, hs]⟩)

theorem pythonDedup_mem (l : List (List ℚ)) (x : List ℚ) :
    x ∈ pythonDedup l ↔ x ∈ l := by
  rw [pythonDedup, pythonDedupAux_mem]
  simp

theorem pythonDedupAux_nodup : ∀ (l seen : List (List ℚ)),
    (pythonDedupAux l seen).Nodup := by
  intro l
  induction l with
  | nil => intro seen; simp [pythonDedupAux]
  | cons a t ih =>
    intro seen
    simp only [pythonDedupAux]
    by_cases ha : a ∈ seen
    · rw [if_pos ha]; exact ih seen
    · rw [if_neg ha]
      refine List.nodup_cons.mpr ⟨?_, ih (a :: seen)⟩
      intro hmem
      exact ((pythonDedupAux_mem t (a :: seen) a).mp hmem).2 (List.mem_cons_self _ _)

theorem pythonDedup_nodup (l : List (List ℚ)) : (pythonDedup l).Nodup :=
  pythonDedupAux_nodup l []


/-! ### Lemmas about `patrones_unicos_de` -/

/-- Every canonicalised unique pattern fits the roll. -/
theorem patrones_sum_le (L : ℚ) (paraOpt : List (ℚ × ℕ)) (maxI : Option ℕ)
    (p : List ℚ) (hp : p ∈ patrones_unicos_de L paraOpt maxI) : p.sum ≤ L := by
  rw [patrones_unicos_de, pythonDedup_mem] at hp
  obtain ⟨q, hq, rfl⟩ := List.mem_map.mp hp
  have hsum : (ordenarAsc q).sum = q.sum :=
    (List.perm_insertionSort _ q).sum_eq
  rw [hsum]
  exact (genF_inv L _ _ _ q hq).1

/-- Pattern-list monotonicity in the cap: everything generated under
cap `k` is also generated under cap `k' ≥ k`. -/
theorem patrones_mono (L : ℚ) (paraOpt : List (ℚ × ℕ)) (k k' : ℕ) (hk : k ≤ k')
    (p : List ℚ) (hp : p ∈ patrones_unicos_de L paraOpt (some k)) :
    p ∈ patrones_unicos_de L paraOpt (some k') := by
  rw [patrones_unicos_de, pythonDedup_mem] at hp ⊢
  obtain ⟨q, hq, rfl⟩ := List.mem_map.mp hp
  refine List.mem_map.mpr ⟨q, ?_, rfl⟩
  exact genF_mono L k k' hk _ _ q hq

theorem fuelSinTope_pos (L : ℚ) (largos : List ℚ) : 1 ≤ fuelSinTope L largos := by
  unfold fuelSinTope
  cases pythonMin largos with
  | none => exact le_refl 1
  | some m =>
    dsimp only
    by_cases hm : 0 < m
    · rw [if_pos hm]; omega
    · rw [if_neg hm]

theorem fuelDe_pos (L : ℚ) (largos : List ℚ) (maxI : Option ℕ)
    (h : maxI = none ∨ ∃ k, maxI = some k ∧ 1 ≤ k) : 1 ≤ fuelDe L largos maxI := by
  rcases h with rfl | ⟨k, rfl, hk⟩
  · exact fuelSinTope_pos L largos
  · simpa [fuelDe] using hk

/-- With non-empty small demand whose lengths all fit the roll, and a
cap that is unset or at least 1, the unique-pattern list is non-empty. -/
theorem patrones_ne_nil (L : ℚ) (paraOpt : List (ℚ × ℕ)) (maxI : Option ℕ)
    (hne : paraOpt ≠ []) (hkeys : ∀ lq ∈ paraOpt, lq.1 ≤ L)
    (hcap : maxI = none ∨ ∃ k, maxI = some k ∧ 1 ≤ k) :
    patrones_unicos_de L paraOpt maxI ≠ [] := by
  have hmapne : paraOpt.map Prod.fst ≠ [] := by
    intro h
    exact hne (List.map_eq_nil_iff.mp h)
  have hlne : ordenarDesc (paraOpt.map Prod.fst) ≠ [] := by
    intro h
    apply hmapne
    have hperm := (List.perm_insertionSort (fun a b : ℚ => b ≤ a) (paraOpt.map Prod.fst)).symm
    rw [ordenarDesc] at h
    rw [h] at hperm
    exact hperm.eq_nil
  obtain ⟨l, hl⟩ := List.exists_mem_of_ne_nil _ hlne
  have hlmem : l ∈ paraOpt.map Prod.fst :=
    (List.perm_insertionSort _ _).mem_iff.mp hl
  obtain ⟨lq, hlq, rfl⟩ := List.mem_map.mp hlmem
  have hle : lq.1 ≤ L := hkeys lq hlq
  obtain ⟨r, hr⟩ :=
    Nat.exists_eq_add_of_le (fuelDe_pos L (ordenarDesc (paraOpt.map Prod.fst)) maxI hcap)
  have hmem : [lq.1] ∈ generar_todos_los_patrones
      (ordenarDesc (paraOpt.map Prod.fst)) L maxI := by
    rw [generar_todos_los_patrones, hr, Nat.add_comm]
    exact singleton_mem_genF L r _ lq.1 hl hle
  intro hnil
  have : [lq.1] ∈ patrones_unicos_de L paraOpt maxI := by
    rw [patrones_unicos_de, pythonDedup_mem]
    exact List.mem_map.mpr ⟨[lq.1], hmem, rfl⟩
  rw [hnil] at this
  exact absurd this (by simp)

/-! ### Lemmas about `assocAdd` and `separarSolicitudes` -/

theorem cantidadTotal_nil (l : ℚ) : cantidadTotal [] l = 0 := rfl

theorem cantidadTotal_cons (kv : ℚ × ℕ) (a : List (ℚ × ℕ)) (l : ℚ) :
    cantidadTotal (kv :: a) l = (if kv.1 = l then kv.2 else 0) + cantidadTotal a l := by
  simp [cantidadTotal]

theorem cantidadTotal_append (a b : List (ℚ × ℕ)) (l : ℚ) :
    cantidadTotal (a ++ b) l = cantidadTotal a l + cantidadTotal b l := by
  simp [cantidadTotal]

theorem assocAdd_cantidad (l : ℚ) : ∀ (a : List (ℚ × ℕ)) (kv : ℚ × ℕ),
    cantidadTotal (assocAdd a kv) l =
      cantidadTotal a l + if kv.1 = l then kv.2 else 0 := by
  intro a
  induction a with
  | nil => intro kv; simp [assocAdd, cantidadTotal]
  | cons hd rest ih =>
    intro kv
    obtain ⟨k, v⟩ := hd
    simp only [assocAdd]
    by_cases hk : k = kv.1
    · rw [if_pos hk]
      rw [cantidadTotal_cons, cantidadTotal_cons]
      rw [hk]
      by_cases hl : kv.1 = l
      · rw [if_pos hl, if_pos hl, if_pos hl]; omega
      · rw [if_neg hl, if_neg hl, if_neg hl]; omega
    · rw [if_neg hk]
      rw [cantidadTotal_cons, cantidadTotal_cons, ih kv]
      omega

theorem sumaLargoPorCantidad_nil : sumaLargoPorCantidad [] = 0 := rfl

theorem sumaLargoPorCantidad_cons (kv : ℚ × ℕ) (a : List (ℚ × ℕ)) :
    sumaLargoPorCantidad (kv :: a) = kv.1 * (kv.2 : ℚ) + sumaLargoPorCantidad a := by
  simp [sumaLargoPorCantidad]

theorem sumaLargoPorCantidad_append (a b : List (ℚ × ℕ)) :
    sumaLargoPorCantidad (a ++ b) = sumaLargoPorCantidad a + sumaLargoPorCantidad b := by
  simp [sumaLargoPorCantidad]

theorem assocAdd_suma : ∀ (a : List (ℚ × ℕ)) (kv : ℚ × ℕ),
    sumaLargoPorCantidad (assocAdd a kv) =
      sumaLargoPorCantidad a + kv.1 * (kv.2 : ℚ) := by
  intro a
  induction a with
  | nil => intro kv; simp [assocAdd, sumaLargoPorCantidad]
  | cons hd rest ih =>
    intro kv
    obtain ⟨k, v⟩ := hd
    simp only [assocAdd]
    by_cases hk : k = kv.1
    · rw [if_pos hk]
      rw [sumaLargoPorCantidad_cons, sumaLargoPorCantidad_cons]
      subst hk
      push_cast
      ring
    · rw [if_neg hk]
      rw [sumaLargoPorCantidad_cons, sumaLargoPorCantidad_cons, ih kv]
      ring

theorem assocAdd_keys_mem : ∀ (a : List (ℚ × ℕ)) (kv : ℚ × ℕ) (x : ℚ),
    x ∈ (assocAdd a kv).map Prod.fst ↔ x ∈ a.map Prod.fst ∨ x = kv.1 := by
  intro a
  induction a with
  | nil => intro kv x; simp [assocAdd]
  | cons hd rest ih =>
    intro kv x
    obtain ⟨k, v⟩ := hd
    simp only [assocAdd]
    by_cases hk : k = kv.1
    · rw [if_pos hk]
      subst hk
      simp only [List.map_cons, List.mem_cons]
      constructor
      · rintro (rfl | h)
        · exact Or.inl (Or.inl rfl)
        · exact Or.inl (Or.inr h)
      · rintro ((rfl | h) | rfl)
        · exact Or.inl rfl
        · exact Or.inr h
        · exact Or.inl rfl
    · rw [if_neg hk]
      simp only [List.map_cons, List.mem_cons, ih kv x]
      tauto

theorem assocAdd_nodupkeys : ∀ (a : List (ℚ × ℕ)) (kv : ℚ × ℕ),
    (a.map Prod.fst).Nodup → ((assocAdd a kv).map Prod.fst).Nodup := by
  intro a
  induction a with
  | nil => intro kv _; simp [assocAdd]
  | cons hd rest ih =>
    intro kv h
    obtain ⟨k, v⟩ := hd
    simp only [List.map_cons, List.nodup_cons] at h
    simp only [assocAdd]
    by_cases hk : k = kv.1
    · rw [if_pos hk]
      simp only [List.map_cons, List.nodup_cons]
      exact h
    · rw [if_neg hk]
      simp only [List.map_cons, List.nodup_cons]
      refine ⟨?_, ih kv h.2⟩
      intro hmem
      rcases (assocAdd_keys_mem rest kv k).mp hmem with hmem | hmem
      · exact h.1 hmem
      · exact hk hmem

theorem cantidadTotal_eq_zero_of_not_mem (l : ℚ) :
    ∀ (a : List (ℚ × ℕ)), l ∉ a.map Prod.fst → cantidadTotal a l = 0 := by
  intro a
  induction a with
  | nil => intro _; rfl
  | cons hd rest ih =>
    intro h
    simp only [List.map_cons, List.mem_cons] at h
    push_neg at h
    rw [cantidadTotal_cons, if_neg (fun he => h.1 he.symm), ih h.2]

/-- On an association list with distinct keys, the total quantity for a
length is either zero or realised by an actual entry. -/
theorem cantidad_mem (l : ℚ) : ∀ (D : List (ℚ × ℕ)), (D.map Prod.fst).Nodup →
    cantidadTotal D l = 0 ∨ (l, cantidadTotal D l) ∈ D := by
  intro D
  induction D with
  | nil => intro _; exact Or.inl rfl
  | cons hd rest ih =>
    intro h
    obtain ⟨k, v⟩ := hd
    simp only [List.map_cons, List.nodup_cons] at h
    rw [cantidadTotal_cons]
    by_cases hk : k = l
    · rw [if_pos hk]
      subst hk
      rw [cantidadTotal_eq_zero_of_not_mem k rest h.1]
      exact Or.inr (List.mem_cons_self _ _)
    · rw [if_neg hk, Nat.zero_add]
      rcases ih h.2 with h0 | hmem
      · exact Or.inl h0
      · exact Or.inr (List.mem_cons_of_mem _ hmem)


theorem separar_aux_fst_cantidad (L l : ℚ) : ∀ (sol : List (ℚ × ℕ))
    (acc : List (ℚ × ℕ) × List (ℚ × ℕ)),
    cantidadTotal (sol.foldl (procesarSolicitud L) acc).1 l =
      cantidadTotal acc.1 l + if L < l then 0 else cantidadTotal sol l := by
  intro sol
  induction sol with
  | nil =>
    intro acc
    rw [List.foldl_nil, cantidadTotal_nil]
    split <;> omega
  | cons lc rest ih =>
    intro acc
    rw [List.foldl_cons, ih, cantidadTotal_cons]
    simp only [procesarSolicitud]
    by_cases hgrande : L < lc.1
    · rw [if_pos hgrande]
      by_cases hl : L < l
      · rw [if_pos hl, if_pos hl]
      · rw [if_neg hl, if_neg hl]
        have : lc.1 ≠ l := fun he => hl (he ▸ hgrande)
        rw [if_neg this]
        dsimp only
        omega
    · rw [if_neg hgrande]
      rw [assocAdd_cantidad]
      by_cases hl : L < l
      · rw [if_pos hl, if_pos hl]
        have : lc.1 ≠ l := fun he => hgrande (he ▸ hl)
        rw [if_neg this]
      · rw [if_neg hl, if_neg hl]
        omega

theorem separar_aux_snd_cantidad (L l : ℚ) : ∀ (sol : List (ℚ × ℕ))
    (acc : List (ℚ × ℕ) × List (ℚ × ℕ)),
    cantidadTotal (sol.foldl (procesarSolicitud L) acc).2 l =
      cantidadTotal acc.2 l + if L < l then cantidadTotal sol l else 0 := by
  intro sol
  induction sol with
  | nil =>
    intro acc
    rw [List.foldl_nil, cantidadTotal_nil]
    split <;> omega
  | cons lc rest ih =>
    intro acc
    rw [List.foldl_cons, ih, cantidadTotal_cons]
    simp only [procesarSolicitud]
    by_cases hgrande : L < lc.1
    · rw [if_pos hgrande]
      dsimp only
      rw [cantidadTotal_append, cantidadTotal_cons, cantidadTotal_nil]
      by_cases hl : L < l
      · rw [if_pos hl, if_pos hl]; omega
      · rw [if_neg hl, if_neg hl]
        have : lc.1 ≠ l := fun he => hl (he ▸ hgrande)
        rw [if_neg this]
    · rw [if_neg hgrande]
      dsimp only
      by_cases hl : L < l
      · rw [if_pos hl, if_pos hl]
        have : lc.1 ≠ l := fun he => hgrande (he ▸ hl)
        rw [if_neg this]
        omega
      · rw [if_neg hl, if_neg hl]

theorem separar_fst_cantidad (L l : ℚ) (sol : List (ℚ × ℕ)) :
    cantidadTotal (separarSolicitudes L sol).1 l =
      if L < l then 0 else cantidadTotal sol l := by
  rw [separarSolicitudes, separar_aux_fst_cantidad, cantidadTotal_nil, Nat.zero_add]

theorem separar_snd_cantidad (L l : ℚ) (sol : List (ℚ × ℕ)) :
    cantidadTotal (separarSolicitudes L sol).2 l =
      if L < l then cantidadTotal sol l else 0 := by
  rw [separarSolicitudes, separar_aux_snd_cantidad, cantidadTotal_nil, Nat.zero_add]

theorem separar_aux_suma (L : ℚ) : ∀ (sol : List (ℚ × ℕ))
    (acc : List (ℚ × ℕ) × List (ℚ × ℕ)),
    sumaLargoPorCantidad (sol.foldl (procesarSolicitud L) acc).1 +
      sumaLargoPorCantidad (sol.foldl (procesarSolicitud L) acc).2 =
    sumaLargoPorCantidad acc.1 + sumaLargoPorCantidad acc.2 +
      sumaLargoPorCantidad sol := by
  intro sol
  induction sol with
  | nil =>
    intro acc
    rw [List.foldl_nil, sumaLargoPorCantidad_nil, add_zero]
  | cons lc rest ih =>
    intro acc
    rw [List.foldl_cons, ih, sumaLargoPorCantidad_cons]
    simp only [procesarSolicitud]
    by_cases hgrande : L < lc.1
    · rw [if_pos hgrande]
      rw [sumaLargoPorCantidad_append, sumaLargoPorCantidad_cons, sumaLargoPorCantidad_nil]
      ring
    · rw [if_neg hgrande]
      rw [assocAdd_suma]
      ring

/-- Global material conservation of the splitter. -/
theorem separar_suma (L : ℚ) (sol : List (ℚ × ℕ)) :
    sumaLargoPorCantidad (separarSolicitudes L sol).1 +
      sumaLargoPorCantidad (separarSolicitudes L sol).2 = sumaLargoPorCantidad sol := by
  rw [separarSolicitudes, separar_aux_suma]
  rw [sumaLargoPorCantidad_nil]
  ring

theorem assocAdd_keys_le (L : ℚ) : ∀ (a : List (ℚ × ℕ)) (kv : ℚ × ℕ),
    (∀ x ∈ a, x.1 ≤ L) → kv.1 ≤ L → ∀ x ∈ assocAdd a kv, x.1 ≤ L := by
  intro a
  induction a with
  | nil =>
    intro kv _ hk x hx
    simp only [assocAdd, List.mem_singleton] at hx
    subst hx
    exact hk
  | cons hd tl ih =>
    intro kv h hk x hx
    obtain ⟨k, v⟩ := hd
    simp only [assocAdd] at hx
    by_cases hkk : k = kv.1
    · rw [if_pos hkk] at hx
      rcases List.mem_cons.mp hx with rfl | hx
      · exact h (k, v) (List.mem_cons_self _ _)
      · exact h x (List.mem_cons_of_mem _ hx)
    · rw [if_neg hkk] at hx
      rcases List.mem_cons.mp hx with rfl | hx
      · exact h (k, v) (List.mem_cons_self _ _)
      · exact ih kv (fun y hy => h y (List.mem_cons_of_mem _ hy)) hk x hx

theorem separar_aux_keys_le (L : ℚ) : ∀ (sol : List (ℚ × ℕ))
    (acc : List (ℚ × ℕ) × List (ℚ × ℕ)),
    (∀ x ∈ acc.1, x.1 ≤ L) →
    ∀ x ∈ (sol.foldl (procesarSolicitud L) acc).1, x.1 ≤ L := by
  intro sol
  induction sol with
  | nil => intro acc h; simpa using h
  | cons lc rest ih =>
    intro acc h
    rw [List.foldl_cons]
    refine ih _ ?_
    simp only [procesarSolicitud]
    by_cases hgrande : L < lc.1
    · rw [if_pos hgrande]; exact h
    · rw [if_neg hgrande]
      exact assocAdd_keys_le L acc.1 lc h (not_lt.mp hgrande)

theorem separar_keys_le (L : ℚ) (sol : List (ℚ × ℕ)) :
    ∀ x ∈ (separarSolicitudes L sol).1, x.1 ≤ L :=
  separar_aux_keys_le L sol ([], []) (by simp)

theorem separar_aux_nodupkeys (L : ℚ) : ∀ (sol : List (ℚ × ℕ))
    (acc : List (ℚ × ℕ) × List (ℚ × ℕ)),
    (acc.1.map Prod.fst).Nodup →
    ((sol.foldl (procesarSolicitud L) acc).1.map Prod.fst).Nodup := by
  intro sol
  induction sol with
  | nil => intro acc h; simpa using h
  | cons lc rest ih =>
    intro acc h
    rw [List.foldl_cons]
    refine ih _ ?_
    simp only [procesarSolicitud]
    by_cases hgrande : L < lc.1
    · rw [if_pos hgrande]; exact h
    · rw [if_neg hgrande]
      exact assocAdd_nodupkeys acc.1 lc h

theorem separar_nodupkeys (L : ℚ) (sol : List (ℚ × ℕ)) :
    ((separarSolicitudes L sol).1.map Prod.fst).Nodup :=
  separar_aux_nodupkeys L sol ([], []) (by simp)


/-! ### Unfolding lemmas for the three paths of the cutting-plan computation -/

theorem optimizar_soloGrandes_eq (solver : Solver) (L : ℚ) (sol : List (ℚ × ℕ))
    (maxI : Option ℕ) (h : (separarSolicitudes L sol).1 = []) :
    optimizar_cortes_para_un_largo_rollo solver L sol maxI =
      ⟨.soloGrandes, (rollosGrandes L (separarSolicitudes L sol).2 : ℚ),
        desperdicioGrandes L (separarSolicitudes L sol).2,
        resumenGrandes L (separarSolicitudes L sol).2, [],
        (separarSolicitudes L sol).2⟩ := by
  simp only [optimizar_cortes_para_un_largo_rollo]
  rw [if_pos h]

theorem optimizar_noPatrones_eq (solver : Solver) (L : ℚ) (sol : List (ℚ × ℕ))
    (maxI : Option ℕ) (h1 : (separarSolicitudes L sol).1 ≠ [])
    (h2 : patrones_unicos_de L (separarSolicitudes L sol).1 maxI = []) :
    optimizar_cortes_para_un_largo_rollo solver L sol maxI =
      ⟨.noPatrones, (rollosGrandes L (separarSolicitudes L sol).2 : ℚ),
        desperdicioGrandes L (separarSolicitudes L sol).2,
        resumenGrandes L (separarSolicitudes L sol).2, [],
        (separarSolicitudes L sol).2⟩ := by
  simp only [optimizar_cortes_para_un_largo_rollo]
  rw [if_neg h1, if_pos h2]

theorem optimizar_optimal_eq (solver : Solver) (L : ℚ) (sol : List (ℚ × ℕ))
    (maxI : Option ℕ) (h1 : (separarSolicitudes L sol).1 ≠ [])
    (h2 : patrones_unicos_de L (separarSolicitudes L sol).1 maxI ≠ [])
    (h3 : (solver (patrones_unicos_de L (separarSolicitudes L sol).1 maxI)
      (separarSolicitudes L sol).1).status = .optimal) :
    optimizar_cortes_para_un_largo_rollo solver L sol maxI =
      ⟨.optimalE,
        (((solver (patrones_unicos_de L (separarSolicitudes L sol).1 maxI)
            (separarSolicitudes L sol).1).values.sum : ℚ) +
          (rollosGrandes L (separarSolicitudes L sol).2 : ℚ)),
        ((((solver (patrones_unicos_de L (separarSolicitudes L sol).1 maxI)
            (separarSolicitudes L sol).1).values.sum : ℚ) * L -
            sumaLargoPorCantidad (separarSolicitudes L sol).1) +
          desperdicioGrandes L (separarSolicitudes L sol).2),
        resumenGrandes L (separarSolicitudes L sol).2,
        construirDetalles L
          ((patrones_unicos_de L (separarSolicitudes L sol).1 maxI).zip
            (solver (patrones_unicos_de L (separarSolicitudes L sol).1 maxI)
              (separarSolicitudes L sol).1).values) 1,
        (separarSolicitudes L sol).2⟩ := by
  simp only [optimizar_cortes_para_un_largo_rollo]
  rw [if_neg h1, if_neg h2, h3]

theorem optimizar_noOptimal_eq (solver : Solver) (L : ℚ) (sol : List (ℚ × ℕ))
    (maxI : Option ℕ) (h1 : (separarSolicitudes L sol).1 ≠ [])
    (h2 : patrones_unicos_de L (separarSolicitudes L sol).1 maxI ≠ [])
    (h3 : (solver (patrones_unicos_de L (separarSolicitudes L sol).1 maxI)
        (separarSolicitudes L sol).1).status = .infeasible ∨
      (solver (patrones_unicos_de L (separarSolicitudes L sol).1 maxI)
        (separarSolicitudes L sol).1).status = .otherStatus) :
    optimizar_cortes_para_un_largo_rollo solver L sol maxI =
      ⟨Estado.deSolver (solver (patrones_unicos_de L (separarSolicitudes L sol).1 maxI)
          (separarSolicitudes L sol).1).status,
        (rollosGrandes L (separarSolicitudes L sol).2 : ℚ),
        desperdicioGrandes L (separarSolicitudes L sol).2,
        resumenGrandes L (separarSolicitudes L sol).2, [],
        (separarSolicitudes L sol).2⟩ := by
  simp only [optimizar_cortes_para_un_largo_rollo]
  rw [if_neg h1, if_neg h2]
  rcases h3 with h3 | h3 <;> rw [h3]

/-- Inversion: an `Optimal` outcome means a non-empty small demand,
non-empty pattern list, and an `Optimal` solver answer. -/
theorem estado_optimal_inv (solver : Solver) (L : ℚ) (sol : List (ℚ × ℕ))
    (maxI : Option ℕ)
    (h : (optimizar_cortes_para_un_largo_rollo solver L sol maxI).estado = .optimalE) :
    (separarSolicitudes L sol).1 ≠ [] ∧
    patrones_unicos_de L (separarSolicitudes L sol).1 maxI ≠ [] ∧
    (solver (patrones_unicos_de L (separarSolicitudes L sol).1 maxI)
      (separarSolicitudes L sol).1).status = .optimal := by
  by_cases h1 : (separarSolicitudes L sol).1 = []
  · rw [optimizar_soloGrandes_eq solver L sol maxI h1] at h
    simp at h
  · by_cases h2 : patrones_unicos_de L (separarSolicitudes L sol).1 maxI = []
    · rw [optimizar_noPatrones_eq solver L sol maxI h1 h2] at h
      simp at h
    · refine ⟨h1, h2, ?_⟩
      cases hst : (solver (patrones_unicos_de L (separarSolicitudes L sol).1 maxI)
          (separarSolicitudes L sol).1).status with
      | optimal => rfl
      | infeasible =>
        rw [optimizar_noOptimal_eq solver L sol maxI h1 h2 (Or.inl hst), hst] at h
        simp [Estado.deSolver] at h
      | otherStatus =>
        rw [optimizar_noOptimal_eq solver L sol maxI h1 h2 (Or.inr hst), hst] at h
        simp [Estado.deSolver] at h

/-- Inversion: the only path producing `soloGrandes` is the all-large
early return. -/
theorem estado_soloGrandes_inv (solver : Solver) (L : ℚ) (sol : List (ℚ × ℕ))
    (maxI : Option ℕ)
    (h : (optimizar_cortes_para_un_largo_rollo solver L sol maxI).estado = .soloGrandes) :
    (separarSolicitudes L sol).1 = [] := by
  by_cases h1 : (separarSolicitudes L sol).1 = []
  · exact h1
  · by_cases h2 : patrones_unicos_de L (separarSolicitudes L sol).1 maxI = []
    · rw [optimizar_noPatrones_eq solver L sol maxI h1 h2] at h
      simp at h
    · cases hst : (solver (patrones_unicos_de L (separarSolicitudes L sol).1 maxI)
          (separarSolicitudes L sol).1).status with
      | optimal =>
        rw [optimizar_optimal_eq solver L sol maxI h1 h2 hst] at h
        simp at h
      | infeasible =>
        rw [optimizar_noOptimal_eq solver L sol maxI h1 h2 (Or.inl hst), hst] at h
        simp [Estado.deSolver] at h
      | otherStatus =>
        rw [optimizar_noOptimal_eq solver L sol maxI h1 h2 (Or.inr hst), hst] at h
        simp [Estado.deSolver] at h


/-! ### C2: total waste vs. the global material balance -/

/-- C2 counterexample.  With max-items cap 0 and requests
{12: 1, 3: 1} on rolls of 5, the pattern set is empty, the computation
returns the large-piece waste 3, while the global material-balance
formula gives 3·5 − 15 = 0: the returned waste does not equal the
formula for every input. -/
theorem C2_contraejemplo :
    (optimizar_cortes_para_un_largo_rollo solverTrivial 5 [(12, 1), (3, 1)]
        (some 0)).desperdicio_total ≠
      (optimizar_cortes_para_un_largo_rollo solverTrivial 5 [(12, 1), (3, 1)]
          (some 0)).num_rollos_totales * 5 -
        sumaLargoPorCantidad [(12, 1), (3, 1)] := by
  decide

/-- C2 as amended.  Whenever the computation returns a status with a
materialised plan — `Optimal`, or the all-large early return — the
returned total waste equals (total rolls used × roll length) − (net
requested length across all pieces, including large): the code's
per-component sum coincides exactly with the global material balance on
those paths.  (On failure paths — no patterns, infeasible, other — the
returned waste covers only the large-piece component.) -/
theorem C2_enmendada (solver : Solver) (L : ℚ) (sol : List (ℚ × ℕ)) (maxI : Option ℕ)
    (h : (optimizar_cortes_para_un_largo_rollo solver L sol maxI).estado = .optimalE ∨
      (optimizar_cortes_para_un_largo_rollo solver L sol maxI).estado = .soloGrandes) :
    (optimizar_cortes_para_un_largo_rollo solver L sol maxI).desperdicio_total =
      (optimizar_cortes_para_un_largo_rollo solver L sol maxI).num_rollos_totales * L -
        sumaLargoPorCantidad sol := by
  rcases h with h | h
  · obtain ⟨h1, h2, h3⟩ := estado_optimal_inv solver L sol maxI h
    rw [optimizar_optimal_eq solver L sol maxI h1 h2 h3]
    have hsuma := separar_suma L sol
    simp only [desperdicioGrandes]
    rw [← hsuma]
    ring
  · have h1 := estado_soloGrandes_inv solver L sol maxI h
    rw [optimizar_soloGrandes_eq solver L sol maxI h1]
    have hsuma := separar_suma L sol
    have hz : sumaLargoPorCantidad (separarSolicitudes L sol).1 = 0 := by
      rw [h1]; rfl
    simp only [desperdicioGrandes]
    rw [← hsuma, hz]
    ring

/-- Witness for C2 at a concrete optimal run (roll 5, one request of
length 3, cap 1, solver answering the optimal `x = [1]`). -/
theorem C2_testigo :
    (optimizar_cortes_para_un_largo_rollo solverUno 5 [(3, 1)] (some 1)).desperdicio_total =
      (optimizar_cortes_para_un_largo_rollo solverUno 5 [(3, 1)]
          (some 1)).num_rollos_totales * 5 -
        sumaLargoPorCantidad [(3, 1)] :=
  C2_enmendada solverUno 5 [(3, 1)] (some 1) (Or.inl (by decide))

/-! ### C5: large-piece arithmetic -/

/-- C5.  For every request set with oversized requests, the large-piece
group uses `rolls = ⌈(Σ length·quantity) / roll⌉` and
`waste = rolls·roll − Σ length·quantity`; in particular the request
{12: 1} on rolls of 5 yields the all-large status with 3 rolls and
waste 3, for every solver and cap. -/
theorem C5_teorema :
    (∀ (L : ℚ) (sol : List (ℚ × ℕ)), (separarSolicitudes L sol).2 ≠ [] →
      rollosGrandes L (separarSolicitudes L sol).2 =
        ⌈sumaLargoPorCantidad (separarSolicitudes L sol).2 / L⌉ ∧
      desperdicioGrandes L (separarSolicitudes L sol).2 =
        (rollosGrandes L (separarSolicitudes L sol).2 : ℚ) * L -
          sumaLargoPorCantidad (separarSolicitudes L sol).2) ∧
    (∀ (solver : Solver) (maxI : Option ℕ),
      (optimizar_cortes_para_un_largo_rollo solver 5 [(12, 1)] maxI).estado =
        .soloGrandes ∧
      (optimizar_cortes_para_un_largo_rollo solver 5 [(12, 1)] maxI).num_rollos_totales
        = 3 ∧
      (optimizar_cortes_para_un_largo_rollo solver 5 [(12, 1)]
        maxI).desperdicio_total = 3) := by
  constructor
  · intro L sol hne
    exact ⟨by rw [rollosGrandes, if_neg hne], rfl⟩
  · intro solver maxI
    have h1 : (separarSolicitudes 5 [((12 : ℚ), (1 : ℕ))]).1 = [] := by decide
    rw [optimizar_soloGrandes_eq solver 5 [(12, 1)] maxI h1]
    exact ⟨rfl, by decide, by decide⟩

/-- Witness for C5: the instantiated large-piece formulas and status at
the concrete input {12: 1}, roll length 5. -/
theorem C5_testigo :
    rollosGrandes 5 (separarSolicitudes 5 [(12, 1)]).2 =
      ⌈sumaLargoPorCantidad (separarSolicitudes 5 [(12, 1)]).2 / 5⌉ ∧
    (optimizar_cortes_para_un_largo_rollo solverTrivial 5 [(12, 1)] none).estado =
      .soloGrandes :=
  ⟨(C5_teorema.1 5 [(12, 1)] (by decide)).1,
   (C5_teorema.2 solverTrivial none).1⟩

/-! ### C8: the no-feasible-patterns condition -/

/-- C8.  The computation returns the explicit no-patterns status exactly
when the small-piece demand is non-empty and the generated unique
pattern list is empty; and whenever the small demand is non-empty and
the cap is unset or at least 1, that list is non-empty (each single
length ≤ roll length is itself a one-piece pattern), so the condition
cannot occur. -/
theorem C8_teorema (solver : Solver) (L : ℚ) (sol : List (ℚ × ℕ)) (maxI : Option ℕ) :
    ((optimizar_cortes_para_un_largo_rollo solver L sol maxI).estado = .noPatrones ↔
      (separarSolicitudes L sol).1 ≠ [] ∧
        patrones_unicos_de L (separarSolicitudes L sol).1 maxI = []) ∧
    ((separarSolicitudes L sol).1 ≠ [] →
      (maxI = none ∨ ∃ k, maxI = some k ∧ 1 ≤ k) →
      patrones_unicos_de L (separarSolicitudes L sol).1 maxI ≠ []) := by
  refine ⟨⟨?_, ?_⟩, ?_⟩
  · intro h
    by_cases h1 : (separarSolicitudes L sol).1 = []
    · rw [optimizar_soloGrandes_eq solver L sol maxI h1] at h
      simp at h
    · by_cases h2 : patrones_unicos_de L (separarSolicitudes L sol).1 maxI = []
      · exact ⟨h1, h2⟩
      · cases hst : (solver (patrones_unicos_de L (separarSolicitudes L sol).1 maxI)
            (separarSolicitudes L sol).1).status with
        | optimal =>
          rw [optimizar_optimal_eq solver L sol maxI h1 h2 hst] at h
          simp at h
        | infeasible =>
          rw [optimizar_noOptimal_eq solver L sol maxI h1 h2 (Or.inl hst), hst] at h
          simp [Estado.deSolver] at h
        | otherStatus =>
          rw [optimizar_noOptimal_eq solver L sol maxI h1 h2 (Or.inr hst), hst] at h
          simp [Estado.deSolver] at h
  · rintro ⟨h1, h2⟩
    rw [optimizar_noPatrones_eq solver L sol maxI h1 h2]
  · intro h1 hcap
    exact patrones_ne_nil L _ maxI h1 (separar_keys_le L sol) hcap

/-- Witness for C8: with small demand {3: 1} on rolls of 5 and no cap,
the unique-pattern list is non-empty. -/
theorem C8_testigo :
    patrones_unicos_de 5 (separarSolicitudes 5 [(3, 1)]).1 none ≠ [] :=
  (C8_teorema solverTrivial 5 [(3, 1)] none).2 (by decide) (Or.inl rfl)


/-! ### Sum-transfer machinery for solutions over different pattern lists -/

theorem sum_map_add_distrib {α : Type} (l : List α) (f g : α → ℕ) :
    (l.map (fun x => f x + g x)).sum = (l.map f).sum + (l.map g).sum := by
  induction l with
  | nil => rfl
  | cons a t ih =>
    simp only [List.map_cons, List.sum_cons, ih]
    omega

theorem sum_single_key (w : List ℚ → ℕ) (c : ℕ) :
    ∀ (P : List (List ℚ)) (q : List ℚ), P.Nodup → q ∈ P →
      (P.map (fun p => w p * if q = p then c else 0)).sum = w q * c := by
  intro P
  induction P with
  | nil => intro q _ hq; exact absurd hq (by simp)
  | cons p0 rest ih =>
    intro q hnd hq
    simp only [List.map_cons, List.sum_cons]
    rcases List.mem_cons.mp hq with rfl | hq
    · rw [if_pos rfl]
      have hzero : (rest.map (fun p => w p * if q = p then c else 0)).sum = 0 := by
        apply List.sum_eq_zero
        intro x hx
        obtain ⟨p, hp, rfl⟩ := List.mem_map.mp hx
        have hne : q ≠ p := fun he => (List.nodup_cons.mp hnd).1 (he ▸ hp)
        rw [if_neg hne, Nat.mul_zero]
      rw [hzero, Nat.add_zero]
    · have hne : q ≠ p0 := by
        intro he
        exact (List.nodup_cons.mp hnd).1 (he ▸ hq)
      rw [if_neg hne, Nat.mul_zero, Nat.zero_add]
      exact ih q (List.nodup_cons.mp hnd).2 hq

/-- Regrouping a weighted sum over demand pairs by their (distinct)
pattern keys. -/
theorem sum_transfer_weight (w : List ℚ → ℕ) :
    ∀ (Z : List (List ℚ × ℕ)) (P : List (List ℚ)), P.Nodup →
      (∀ z ∈ Z, z.1 ∈ P) →
      (P.map (fun p => w p * ((Z.filter (fun z => z.1 = p)).map Prod.snd).sum)).sum
        = (Z.map (fun z => w z.1 * z.2)).sum := by
  intro Z
  induction Z with
  | nil =>
    intro P _ _
    simp
  | cons z Z' ih =>
    intro P hnd hmem
    have hfil : ∀ p : List ℚ,
        (((z :: Z').filter (fun y => y.1 = p)).map Prod.snd).sum =
          (if z.1 = p then z.2 else 0) +
            ((Z'.filter (fun y => y.1 = p)).map Prod.snd).sum := by
      intro p
      by_cases hz : z.1 = p
      · rw [List.filter_cons_of_pos (by simpa using hz), if_pos hz]
        simp
      · rw [List.filter_cons_of_neg (by simpa using hz), if_neg hz]
        simp
    have hmap : (P.map (fun p =>
          w p * (((z :: Z').filter (fun y => y.1 = p)).map Prod.snd).sum)).sum
        = (P.map (fun p => w p * if z.1 = p then z.2 else 0)).sum
          + (P.map (fun p =>
              w p * ((Z'.filter (fun y => y.1 = p)).map Prod.snd).sum)).sum := by
      rw [← sum_map_add_distrib]
      congr 1
      apply List.map_congr_left
      intro p _
      rw [hfil p, Nat.mul_add]
    rw [hmap, sum_single_key w z.2 P z.1 hnd (hmem z (List.mem_cons_self _ _)),
      ih P hnd (fun y hy => hmem y (List.mem_cons_of_mem _ hy))]
    simp

/-- The transferred solution has the same objective value. -/
theorem suma_transfer (P P' : List (List ℚ)) (xs : List ℕ)
    (hnd : P'.Nodup) (hsub : ∀ z ∈ P.zip xs, z.1 ∈ P') (hlen : xs.length = P.length) :
    (P'.map (fun p =>
      (((P.zip xs).filter (fun z => z.1 = p)).map Prod.snd).sum)).sum = xs.sum := by
  have h1 := sum_transfer_weight (fun _ => 1) (P.zip xs) P' hnd hsub
  simp only [Nat.one_mul] at h1
  rw [h1]
  have h2 : ((P.zip xs).map (fun z => z.2)) = (P.zip xs).map Prod.snd := rfl
  rw [h2, List.map_snd_zip P xs (le_of_eq hlen)]

/-- The transferred solution has the same coverage of every length. -/
theorem cobertura_transfer (P P' : List (List ℚ)) (xs : List ℕ) (l : ℚ)
    (hnd : P'.Nodup) (hsub : ∀ z ∈ P.zip xs, z.1 ∈ P') :
    cobertura P' (P'.map (fun p =>
        (((P.zip xs).filter (fun z => z.1 = p)).map Prod.snd).sum)) l
      = cobertura P xs l := by
  have hzip : P'.zip (P'.map (fun p =>
      (((P.zip xs).filter (fun z => z.1 = p)).map Prod.snd).sum)) =
      P'.map (fun p => (p,
        (((P.zip xs).filter (fun z => z.1 = p)).map Prod.snd).sum)) := by
    have := List.zip_map' id (fun p =>
      (((P.zip xs).filter (fun z => z.1 = p)).map Prod.snd).sum) P'
    simpa using this
  rw [cobertura, hzip]
  have hcongr : ((P'.map (fun p => (p,
        (((P.zip xs).filter (fun z => z.1 = p)).map Prod.snd).sum))).map
          (fun z => z.2 * z.1.count l)) =
      P'.map (fun p => p.count l *
        (((P.zip xs).filter (fun z => z.1 = p)).map Prod.snd).sum) := by
    rw [List.map_map]
    apply List.map_congr_left
    intro p _
    simp [Nat.mul_comm]
  have hstep : (P'.map (fun p => p.count l *
        (((P.zip xs).filter (fun z => z.1 = p)).map Prod.snd).sum)).sum
      = ((P.zip xs).map (fun z => z.1.count l * z.2)).sum :=
    sum_transfer_weight (fun p => p.count l) (P.zip xs) P' hnd hsub
  calc ((P'.map (fun p => (p,
        (((P.zip xs).filter (fun z => z.1 = p)).map Prod.snd).sum))).map
          (fun z => z.2 * z.1.count l)).sum
      = (P'.map (fun p => p.count l *
          (((P.zip xs).filter (fun z => z.1 = p)).map Prod.snd).sum)).sum := by
        rw [hcongr]
    _ = ((P.zip xs).map (fun z => z.1.count l * z.2)).sum := hstep
    _ = cobertura P xs l := by
        rw [cobertura]
        congr 1
        apply List.map_congr_left
        intro z _
        rw [Nat.mul_comm]

/-- Transferring a feasible solution over `P` to the superset pattern
list `P'` keeps it feasible with the same objective. -/
theorem factible_transfer (P P' : List (List ℚ)) (D : List (ℚ × ℕ)) (xs : List ℕ)
    (hnd : P'.Nodup) (hsubP : ∀ p ∈ P, p ∈ P') (hfeas : EsFactible P D xs) :
    EsFactible P' D (P'.map (fun p =>
        (((P.zip xs).filter (fun z => z.1 = p)).map Prod.snd).sum)) ∧
    (P'.map (fun p =>
        (((P.zip xs).filter (fun z => z.1 = p)).map Prod.snd).sum)).sum = xs.sum := by
  have hsub : ∀ z ∈ P.zip xs, z.1 ∈ P' := by
    intro z hz
    obtain ⟨a, b⟩ := z
    exact hsubP a (List.of_mem_zip hz).1
  refine ⟨⟨by simp, ?_⟩, suma_transfer P P' xs hnd hsub hfeas.1⟩
  intro ld hld
  rw [cobertura_transfer P P' xs ld.1 hnd hsub]
  exact hfeas.2 ld hld


/-! ### Validity of the concrete solvers -/

theorem solverUno_valido : ValidSolver solverUno := by
  intro P D h
  by_cases hpd : P = [[(3 : ℚ)]] ∧ D = [((3 : ℚ), (1 : ℕ))]
  · obtain ⟨hP, hD⟩ := hpd
    subst hP hD
    have hres : solverUno [[(3 : ℚ)]] [((3 : ℚ), (1 : ℕ))] = ⟨.optimal, [1]⟩ := by
      simp [solverUno]
    rw [hres]
    refine ⟨⟨rfl, ?_⟩, ?_⟩
    · intro ld hld
      simp only [List.mem_singleton] at hld
      subst hld
      decide
    · intro ys hys
      obtain ⟨hlen, hcov⟩ := hys
      have hmem : ((3 : ℚ), (1 : ℕ)) ∈ [((3 : ℚ), (1 : ℕ))] := List.mem_singleton_self _
      have hc := hcov _ hmem
      obtain ⟨y, rfl⟩ := List.length_eq_one.mp hlen
      have hcob : cobertura [[(3 : ℚ)]] [y] 3 = y * 1 + 0 := rfl
      simp only [hcob] at hc
      simp only [List.sum_cons, List.sum_nil]
      omega
  · have hres : solverUno P D = ⟨.otherStatus, []⟩ := by
      simp only [solverUno]
      rw [if_neg hpd]
    rw [hres] at h
    exact absurd h (by decide)

theorem solverDos_valido : ValidSolver solverDos := by
  intro P D h
  by_cases hpd : P = [[(4 : ℚ)], [(4 : ℚ), 4]] ∧ D = [((4 : ℚ), (3 : ℕ))]
  · obtain ⟨hP, hD⟩ := hpd
    subst hP hD
    have hres : solverDos [[(4 : ℚ)], [(4 : ℚ), 4]] [((4 : ℚ), (3 : ℕ))] =
        ⟨.optimal, [0, 2]⟩ := by
      simp [solverDos]
    rw [hres]
    refine ⟨⟨rfl, ?_⟩, ?_⟩
    · intro ld hld
      simp only [List.mem_singleton] at hld
      subst hld
      decide
    · intro ys hys
      obtain ⟨hlen, hcov⟩ := hys
      have hmem : ((4 : ℚ), (3 : ℕ)) ∈ [((4 : ℚ), (3 : ℕ))] := List.mem_singleton_self _
      have hc := hcov _ hmem
      obtain ⟨a, b, rfl⟩ := List.length_eq_two.mp hlen
      have hcob : cobertura [[(4 : ℚ)], [(4 : ℚ), 4]] [a, b] 4 = a * 1 + (b * 2 + 0) := rfl
      simp only [hcob] at hc
      simp only [List.sum_cons, List.sum_nil]
      omega
  · have hres : solverDos P D = ⟨.otherStatus, []⟩ := by
      simp only [solverDos]
      rw [if_neg hpd]
    rw [hres] at h
    exact absurd h (by decide)

/-! ### C6: cap monotonicity -/

/-- C6 counterexample.  For the caps 0 < 1 on roll length 5 with the
single request {3: 1} and a valid solver, the smaller cap produces no
patterns, so the run returns 0 total rolls, strictly fewer than the 1
roll of the cap-1 run: decreasing the cap can decrease the reported
total, contradicting the claim's universal monotonicity. -/
theorem C6_contraejemplo :
    ValidSolver solverUno ∧ (0 : ℕ) < 1 ∧
    (optimizar_cortes_para_un_largo_rollo solverUno 5 [(3, 1)]
        (some 0)).num_rollos_totales <
      (optimizar_cortes_para_un_largo_rollo solverUno 5 [(3, 1)]
        (some 1)).num_rollos_totales :=
  ⟨solverUno_valido, by decide, by decide⟩

/-- C6 as amended.  For every valid solver, fixed roll length and
requests, and caps k ≤ k', **provided both runs report Optimal**, the
total rolls under the smaller cap are at least the total under the
larger one (the cap-k pattern set is contained in the cap-k' one, so
the transferred solution bounds the k' optimum). -/
theorem C6_enmendada (solver : Solver) (hv : ValidSolver solver) (L : ℚ)
    (sol : List (ℚ × ℕ)) (k k' : ℕ) (hk : k ≤ k')
    (hopt : (optimizar_cortes_para_un_largo_rollo solver L sol (some k)).estado
      = .optimalE)
    (hopt' : (optimizar_cortes_para_un_largo_rollo solver L sol (some k')).estado
      = .optimalE) :
    (optimizar_cortes_para_un_largo_rollo solver L sol (some k')).num_rollos_totales ≤
      (optimizar_cortes_para_un_largo_rollo solver L sol (some k)).num_rollos_totales := by
  obtain ⟨h1, h2, h3⟩ := estado_optimal_inv solver L sol (some k) hopt
  obtain ⟨h1', h2', h3'⟩ := estado_optimal_inv solver L sol (some k') hopt'
  have hnd' : (patrones_unicos_de L (separarSolicitudes L sol).1 (some k')).Nodup :=
    pythonDedup_nodup _
  have hsubP : ∀ p ∈ patrones_unicos_de L (separarSolicitudes L sol).1 (some k),
      p ∈ patrones_unicos_de L (separarSolicitudes L sol).1 (some k') :=
    fun p hp => patrones_mono L (separarSolicitudes L sol).1 k k' hk p hp
  have hfeas := (hv _ _ h3).1
  obtain ⟨hfeas', hsum⟩ := factible_transfer _ _ _ _ hnd' hsubP hfeas
  have hle := (hv _ _ h3').2 _ hfeas'
  rw [hsum] at hle
  rw [optimizar_optimal_eq solver L sol (some k) h1 h2 h3,
    optimizar_optimal_eq solver L sol (some k') h1' h2' h3']
  dsimp only
  exact add_le_add_right (Nat.cast_le.mpr hle) _

/-- Witness for C6 at caps 1 ≤ 2 on the concrete optimal run. -/
theorem C6_testigo :
    (optimizar_cortes_para_un_largo_rollo solverUno 5 [(3, 1)]
        (some 2)).num_rollos_totales ≤
      (optimizar_cortes_para_un_largo_rollo solverUno 5 [(3, 1)]
        (some 1)).num_rollos_totales :=
  C6_enmendada solverUno solverUno_valido 5 [(3, 1)] 1 2 (by decide) (by decide)
    (by decide)

/-! ### C3: demand coverage -/

theorem conteoEnDetalles_append (l : ℚ) (a b : List RolloDetalle) :
    conteoEnDetalles l (a ++ b) = conteoEnDetalles l a + conteoEnDetalles l b := by
  simp [conteoEnDetalles]

theorem conteo_construir (L l : ℚ) : ∀ (Z : List (List ℚ × ℕ)) (idx : ℕ),
    conteoEnDetalles l (construirDetalles L Z idx) =
      (Z.map (fun z => z.2 * z.1.count l)).sum := by
  intro Z
  induction Z with
  | nil => intro idx; rfl
  | cons z Z' ih =>
    intro idx
    obtain ⟨p, n⟩ := z
    simp only [construirDetalles]
    rw [conteoEnDetalles_append, ih]
    simp only [List.map_cons, List.sum_cons]
    congr 1
    rw [conteoEnDetalles, List.map_map]
    show (List.map (Function.const ℕ (p.count l)) (List.range n)).sum = n * p.count l
    rw [List.map_const, List.sum_replicate, List.length_range, smul_eq_mul]

/-- C3 as amended.  For every valid solver and every input on which the
run reports Optimal, each length's occurrences across the emitted
per-roll plans plus its large-piece quantity are **at least** the
originally requested quantity (no shortfall; surplus is possible and is
counted as waste, matching the ≥ demand constraints). -/
theorem C3_enmendada (solver : Solver) (hv : ValidSolver solver) (L : ℚ)
    (sol : List (ℚ × ℕ)) (maxI : Option ℕ) (l : ℚ)
    (h : (optimizar_cortes_para_un_largo_rollo solver L sol maxI).estado = .optimalE) :
    cantidadTotal sol l ≤
      conteoEnDetalles l
          (optimizar_cortes_para_un_largo_rollo solver L sol maxI).detalles_opt +
        cantidadTotal
          (optimizar_cortes_para_un_largo_rollo solver L sol maxI).cortes_grandes l := by
  obtain ⟨h1, h2, h3⟩ := estado_optimal_inv solver L sol maxI h
  rw [optimizar_optimal_eq solver L sol maxI h1 h2 h3]
  dsimp only
  by_cases hL : L < l
  · have hg : cantidadTotal (separarSolicitudes L sol).2 l = cantidadTotal sol l := by
      rw [separar_snd_cantidad, if_pos hL]
    rw [hg]
    omega
  · have hsmall : cantidadTotal (separarSolicitudes L sol).1 l = cantidadTotal sol l := by
      rw [separar_fst_cantidad, if_neg hL]
    rcases cantidad_mem l (separarSolicitudes L sol).1 (separar_nodupkeys L sol)
      with h0 | hmem
    · have hz : cantidadTotal sol l = 0 := by rw [← hsmall, h0]
      rw [hz]
      exact Nat.zero_le _
    · have hfeas := (hv _ _ h3).1
      have hcov := hfeas.2 _ hmem
      simp only at hcov
      have hconteo : conteoEnDetalles l
          (construirDetalles L
            ((patrones_unicos_de L (separarSolicitudes L sol).1 maxI).zip
              (solver (patrones_unicos_de L (separarSolicitudes L sol).1 maxI)
                (separarSolicitudes L sol).1).values) 1) =
          cobertura (patrones_unicos_de L (separarSolicitudes L sol).1 maxI)
            (solver (patrones_unicos_de L (separarSolicitudes L sol).1 maxI)
              (separarSolicitudes L sol).1).values l := by
        rw [conteo_construir]
        rfl
      rw [hconteo]
      calc cantidadTotal sol l
          = cantidadTotal (separarSolicitudes L sol).1 l := hsmall.symm
        _ ≤ cobertura (patrones_unicos_de L (separarSolicitudes L sol).1 maxI)
              (solver (patrones_unicos_de L (separarSolicitudes L sol).1 maxI)
                (separarSolicitudes L sol).1).values l := hcov
        _ ≤ _ := Nat.le_add_right _ _

/-- C3 counterexample.  `solverDos` is a valid solver (its answer
`x = [0, 2]` for roll 10, demand {4: 3}, patterns [[4], [4,4]] is
feasible and optimal — 2 rolls is the minimum), yet the materialised
plans cut 4 pieces of length 4 against the 3 requested: coverage is not
exact equality on every Optimal run. -/
theorem C3_contraejemplo :
    ValidSolver solverDos ∧
    (optimizar_cortes_para_un_largo_rollo solverDos 10 [(4, 3)] (some 8)).estado
      = .optimalE ∧
    conteoEnDetalles 4
        (optimizar_cortes_para_un_largo_rollo solverDos 10 [(4, 3)]
          (some 8)).detalles_opt +
      cantidadTotal
        (optimizar_cortes_para_un_largo_rollo solverDos 10 [(4, 3)]
          (some 8)).cortes_grandes 4
      ≠ cantidadTotal [(4, 3)] 4 :=
  ⟨solverDos_valido, by decide, by decide⟩

/-- Witness for C3 on a concrete Optimal run. -/
theorem C3_testigo :
    cantidadTotal [(3, 1)] 3 ≤
      conteoEnDetalles 3
          (optimizar_cortes_para_un_largo_rollo solverUno 5 [(3, 1)]
            (some 1)).detalles_opt +
        cantidadTotal
          (optimizar_cortes_para_un_largo_rollo solverUno 5 [(3, 1)]
            (some 1)).cortes_grandes 3 :=
  C3_enmendada solverUno solverUno_valido 5 [(3, 1)] (some 1) 3 (by decide)


/-! ### C7: pattern feasibility invariants -/

theorem construir_mem (L : ℚ) : ∀ (Z : List (List ℚ × ℕ)) (idx : ℕ) (d : RolloDetalle),
    d ∈ construirDetalles L Z idx →
    ∃ z ∈ Z, d.tipo_rollo = L ∧ d.cortes_en_rollo = z.1 ∧
      d.desperdicio_en_rollo = L - z.1.sum ∧ d.metros_consumidos = z.1.sum := by
  intro Z
  induction Z with
  | nil => intro idx d h; exact absurd h (by simp [construirDetalles])
  | cons z Z' ih =>
    intro idx d h
    obtain ⟨p, n⟩ := z
    simp only [construirDetalles, List.mem_append] at h
    rcases h with h | h
    · obtain ⟨j, _, rfl⟩ := List.mem_map.mp h
      exact ⟨(p, n), List.mem_cons_self _ _, rfl, rfl, rfl, rfl⟩
    · obtain ⟨z', hz', hd⟩ := ih (idx + n) d h
      exact ⟨z', List.mem_cons_of_mem _ hz', hd⟩

/-- Every returned materialised roll plan comes from a unique pattern of
the run. -/
theorem detalles_opt_mem (solver : Solver) (L : ℚ) (sol : List (ℚ × ℕ))
    (maxI : Option ℕ) (d : RolloDetalle)
    (hd : d ∈ (optimizar_cortes_para_un_largo_rollo solver L sol maxI).detalles_opt) :
    ∃ p ∈ patrones_unicos_de L (separarSolicitudes L sol).1 maxI,
      d.cortes_en_rollo = p ∧ d.metros_consumidos = p.sum := by
  by_cases h1 : (separarSolicitudes L sol).1 = []
  · rw [optimizar_soloGrandes_eq solver L sol maxI h1] at hd
    simp at hd
  · by_cases h2 : patrones_unicos_de L (separarSolicitudes L sol).1 maxI = []
    · rw [optimizar_noPatrones_eq solver L sol maxI h1 h2] at hd
      simp at hd
    · cases hst : (solver (patrones_unicos_de L (separarSolicitudes L sol).1 maxI)
          (separarSolicitudes L sol).1).status with
      | optimal =>
        rw [optimizar_optimal_eq solver L sol maxI h1 h2 hst] at hd
        dsimp only at hd
        obtain ⟨z, hz, _, hcort, _, hmet⟩ := construir_mem L _ 1 d hd
        obtain ⟨a, b⟩ := z
        exact ⟨a, (List.of_mem_zip hz).1, hcort, hmet⟩
      | infeasible =>
        rw [optimizar_noOptimal_eq solver L sol maxI h1 h2 (Or.inl hst)] at hd
        simp at hd
      | otherStatus =>
        rw [optimizar_noOptimal_eq solver L sol maxI h1 h2 (Or.inr hst)] at hd
        simp at hd

/-- C7.  Every pattern produced by the generator fits the roll and,
when a max-items bound is supplied, has at most that many pieces;
consequently every materialised roll plan's consumed length equals the
sum of its cuts and is at most the roll length. -/
theorem C7_teorema :
    (∀ (largos : List ℚ) (L : ℚ) (maxI : Option ℕ) (p : List ℚ),
      p ∈ generar_todos_los_patrones largos L maxI →
      p.sum ≤ L ∧ ∀ k, maxI = some k → p.length ≤ k) ∧
    (∀ (solver : Solver) (L : ℚ) (sol : List (ℚ × ℕ)) (maxI : Option ℕ)
      (d : RolloDetalle),
      d ∈ (optimizar_cortes_para_un_largo_rollo solver L sol maxI).detalles_opt →
      d.metros_consumidos = d.cortes_en_rollo.sum ∧ d.metros_consumidos ≤ L) := by
  constructor
  · intro largos L maxI p hp
    rw [generar_todos_los_patrones] at hp
    have h := genF_inv L _ largos [] p hp
    refine ⟨h.1, ?_⟩
    rintro k rfl
    have h2 := h.2
    simpa [fuelDe] using h2
  · intro solver L sol maxI d hd
    obtain ⟨p, hp, hcort, hmet⟩ := detalles_opt_mem solver L sol maxI d hd
    refine ⟨by rw [hmet, hcort], ?_⟩
    rw [hmet]
    exact patrones_sum_le L _ maxI p hp

/-- Witness for C7: the one-piece pattern `[3]` on rolls of 5, and the
concrete materialised plan of the cap-1 optimal run. -/
theorem C7_testigo :
    ([(3 : ℚ)] : List ℚ).sum ≤ 5 ∧
    (RolloDetalle.mk 1 5 [3] 2 3).metros_consumidos ≤ 5 :=
  ⟨(C7_teorema.1 [3] 5 (some 8) [3] (by decide)).1,
   (C7_teorema.2 solverUno 5 [(3, 1)] (some 1) (RolloDetalle.mk 1 5 [3] 2 3)
      (by decide)).2⟩

end WLG
